import Mathlib

/-!
Shallow embedding of the glow low-level IR optimizer
(src/lib/Optimizer/IROptimizer.cpp) and verification of the frozen claims.

The instruction stream is a list of instructions; each instruction carries a
unique numeric id `iid`, a kind tag, a type id `ty` and an ordered operand
list.  Values are numeric ids: a `WeightVar` is an entry of the module's
weight table, while `AllocActivation` and `TensorView` values are the
instructions that create them (identified by their `iid`), exactly as in the
C++ IR where `AllocActivationInst` and `TensorViewInst` are both instructions
and `Value`s.  User lists are derived from the operand lists of the stream,
following the spec's §8 characterization of users as the set of operand
references.
-/

namespace Glow

/-- Mutability attribute of a `WeightVar` (spec §3). -/
inductive Mutability
  | Mutable
  | Constant
deriving DecidableEq, Repr

/-- Operand access modes: read-only, write-only, read-write (spec §3). -/
inductive OperandKind
  | In
  | InOut
  | Out
deriving DecidableEq, Repr

/-- Closed set of instruction kind tags used by the optimizer. All kinds the
optimizer does not inspect structurally are collapsed into `genericK`. -/
inductive IKind
  | allocK
  | deallocK
  | tensorViewK
  | copyK
  | splatK
  | reshapeK
  | transposeK
  | elementMaxK
  | poolMaxWithXYK
  | poolMaxK
  | softMaxWithEK
  | softMaxK
  | debugPrintK
  | genericK
deriving DecidableEq, Repr

/-- An operand: the referenced value id together with its access mode. -/
abbrev Operand := Nat × OperandKind

/-- An instruction of the linear stream. For value-producing instructions
(`allocK`, `tensorViewK`) the `iid` doubles as the produced value's id and
`ty` as its type; a `tensorViewK` instruction's operand 0 is its source. -/
structure Instr where
  iid : Nat
  kind : IKind
  ty : Nat
  ops : List Operand
deriving DecidableEq, Repr

/-- A weight variable: id, mutability and type (spec §3). -/
structure WeightV where
  wid : Nat
  wmut : Mutability
  ty : Nat
deriving DecidableEq, Repr

/-- The IR module: the weight table and the linear instruction stream, plus a
fresh-id counter used by the builder when peephole rewrites create new
instructions. -/
structure Module where
  weights : List WeightV
  instrs : List Instr
  nextId : Nat
deriving DecidableEq, Repr

/-- Find the (unique) instruction of a stream that produces value id `v`. -/
def findInstr (L : List Instr) (v : Nat) : Option Instr :=
  L.find? (fun I => I.iid == v)

/-- Does value id `v` name an `AllocActivation` present in the stream? -/
def isAllocValue (L : List Instr) (v : Nat) : Bool :=
  match findInstr L v with
  | some I => I.kind == IKind.allocK
  | none => false

/-- Is value id `v` a weight of module `M`? -/
def isWeightId (M : Module) (v : Nat) : Bool :=
  M.weights.any (fun w => w.wid == v)

/-- Mutability of weight `v`, if `v` is a weight. -/
def weightMut (M : Module) (v : Nat) : Option Mutability :=
  (M.weights.find? (fun w => w.wid == v)).map (fun w => w.wmut)

/-- Fuel-bounded chase of `TensorView` chains; the fuel is the stream length,
an upper bound on the length of any acyclic view chain. -/
def originOfFuel (L : List Instr) : Nat → Nat → Nat
  | 0, v => v
  | n + 1, v =>
    match findInstr L v with
    | some I =>
      if I.kind == IKind.tensorViewK then
        match I.ops with
        | (s, _) :: _ => originOfFuel L n s
        | [] => v
      else v
    | none => v

/-- Modelled from the spec: §4.1 `originOf(v)` — the missing IRUtils
`getOrigin`: if `v` is a `TensorView`, recursively the origin of its source,
else `v` itself. -/
def originOf (L : List Instr) (v : Nat) : Nat :=
  originOfFuel L L.length v

/-- Modelled from the spec: §4.1 `allocationOrigin(v)` — the missing IRUtils
`getAllocationOrigin`: the terminal origin, but only when that origin is an
`AllocActivation`; otherwise none. -/
def getAllocationOrigin (L : List Instr) (v : Nat) : Option Nat :=
  let o := originOf L v
  if isAllocValue L o then some o else none

/-- Insert into a list-represented set (like `std::unordered_set::insert`). -/
def insertNat (a : Nat) (s : List Nat) : List Nat :=
  if a ∈ s then s else a :: s

/-- Number of users of value `v`: one per operand reference in the stream
(spec §8: `v.users == \x7b (I, k) : I ∈ stream, I.op[k].value == v \x7d`). -/
def numUsers (L : List Instr) (v : Nat) : Nat :=
  (L.map (fun I => I.ops.countP (fun o => o.1 == v))).sum

/-- Replace every non-dealloc operand reference to `val` by `with_`
(IROptimizer.cpp lines 188-202, `replaceAllNonDeallocUsersWith`). -/
def replaceAllNonDeallocUsersWith (L : List Instr) (val with_ : Nat) : List Instr :=
  L.map (fun I =>
    if I.kind == IKind.deallocK then I
    else { I with ops := I.ops.map (fun o => if o.1 == val then (with_, o.2) else o) })

/-- Type of a value: a weight's declared type, or the type carried by the
value-producing instruction. -/
def typeOf (M : Module) (L : List Instr) (v : Nat) : Nat :=
  match M.weights.find? (fun w => w.wid == v) with
  | some w => w.ty
  | none =>
    match findInstr L v with
    | some I => I.ty
    | none => 0

/-- Modelled from the spec: §4.5/§6 `isInplaceOp(I, first, second)` — the
missing static per-kind table: elementwise binary ops permit op0 reusing op1
or op2; copy and all other modelled kinds permit none. -/
def isInplaceOp (I : Instr) (first second : Nat) : Bool :=
  match I.kind with
  | IKind.elementMaxK => first == 0 && (second == 1 || second == 2)
  | _ => false

/-- One operand of the kill/out phase of `shareBuffers`
(IROptimizer.cpp lines 265-294): `Out` removes the allocation origin from the
live set (when present) and records it in `outBuffers`; `InOut` adds it to the
live set; `In` adds it back only when it is in `outBuffers`. The state is
`(liveBuffers, outBuffers)`. -/
def sbKillStep (L : List Instr) (st : List Nat × List Nat) (o : Operand) :
    List Nat × List Nat :=
  match getAllocationOrigin L o.1 with
  | none => st
  | some ai =>
    if o.2 = OperandKind.Out then
      if ai ∈ st.1 then (st.1.erase ai, insertNat ai st.2) else st
    else if o.2 = OperandKind.InOut then (insertNat ai st.1, st.2)
    else if ai ∈ st.2 then (insertNat ai st.1, st.2) else st

/-- Phase 1 of `shareBuffers` for a whole instruction: fold `sbKillStep` over
the operand list, starting from a cleared `outBuffers`. -/
def sbPhase1 (L : List Instr) (ops : List Operand) (live : List Nat) :
    List Nat × List Nat :=
  ops.foldl (sbKillStep L) (live, [])

/-- Phase 3 of `shareBuffers` (IROptimizer.cpp lines 303-315): every operand
of kind other than `Out` makes its allocation origin live. -/
def sbPhase3 (L : List Instr) (ops : List Operand) (live : List Nat) : List Nat :=
  ops.foldl (fun lv o =>
    match getAllocationOrigin L o.1 with
    | none => lv
    | some ai => if o.2 = OperandKind.Out then lv else insertNat ai lv) live

/-- The pair scan of `tryToShareBuffersForInstr` (IROptimizer.cpp lines
206-239): for each ordered slot pair `(first, second)` resolve `dest`/`src`
to their allocation origins (falling back to the operand value), require
equal types, distinct values, an `isInplaceOp` entry, and both values dead;
return the first matching `(dest, src)` pair. -/
def tryToShareChoose (M : Module) (L : List Instr) (live : List Nat)
    (I : Instr) : Option (Nat × Nat) :=
  let n := I.ops.length
  (List.range n).findSome? (fun first =>
    ((List.range n).filter (fun second => first < second)).findSome?
      (fun second =>
        match I.ops[first]?, I.ops[second]? with
        | some dOp, some sOp =>
          let dest := (getAllocationOrigin L dOp.1).getD dOp.1
          let src := (getAllocationOrigin L sOp.1).getD sOp.1
          if typeOf M L dest ≠ typeOf M L src ∨ dest = src then none
          else if !isInplaceOp I first second then none
          else if dest ∉ live ∧ src ∉ live then some (dest, src) else none
        | _, _ => none))

/-- Trace record for one instruction of the reverse walk of `shareBuffers`:
the stream position, the live set right after phase 1 (the set consulted by
the in-place attempt), the `outBuffers` set, the allocation origins of the
`Out` and `In` operands, and the `(dest, src)` replacement performed by the
in-place attempt, if any. -/
structure SBStep where
  pos : Nat
  liveAfter1 : List Nat
  outBufs : List Nat
  outOrigins : List Nat
  inOrigins : List Nat
  choice : Option (Nat × Nat)
deriving DecidableEq, Repr

/-- One instruction of the reverse walk of `shareBuffers`: phase 1 (kill
`Out` buffers), the in-place attempt `tryToShareBuffersForInstr` (which
rewrites the stream when a pair is chosen), then phase 3 (make the inputs
live) on the possibly rewritten instruction. Returns the new stream, the new
live set and the trace record. -/
def sbStepInstr (M : Module) (L : List Instr) (live : List Nat) (n : Nat)
    (I : Instr) : List Instr × List Nat × SBStep :=
  let p1 := sbPhase1 L I.ops live
  let choice := tryToShareChoose M L p1.1 I
  let L' := match choice with
    | some p => replaceAllNonDeallocUsersWith L p.1 p.2
    | none => L
  let I' := (L'[n]?).getD I
  let live2 := sbPhase3 L' I'.ops p1.1
  (L', live2,
    { pos := n, liveAfter1 := p1.1, outBufs := p1.2,
      outOrigins := I.ops.filterMap (fun o =>
        if o.2 = OperandKind.Out then getAllocationOrigin L o.1 else none),
      inOrigins := I.ops.filterMap (fun o =>
        if o.2 = OperandKind.In then getAllocationOrigin L o.1 else none),
      choice := choice })

/-- The reverse walk of `shareBuffers` (IROptimizer.cpp lines 257-316),
instrumented with a trace. `n` is the number of instructions still to visit,
so the instruction at position `n - 1` is processed next. -/
def sbWalk (M : Module) : Nat → List Instr → List Nat →
    List Instr × List Nat × List SBStep
  | 0, L, live => (L, live, [])
  | n + 1, L, live =>
    match L[n]? with
    | none => (L, live, [])
    | some I =>
      let s := sbStepInstr M L live n I
      let rest := sbWalk M n s.1 s.2.1
      (rest.1, rest.2.1, s.2.2 :: rest.2.2)

/-- The buffer-sharing pass (IROptimizer.cpp lines 241-317): seed the live
set with all weights, then run the instrumented reverse walk. Returns the
rewritten module together with the trace. -/
def shareBuffers (M : Module) : Module × List SBStep :=
  let live0 := M.weights.foldl (fun s w => insertNat w.wid s) []
  let r := sbWalk M M.instrs.length M.instrs live0
  ({ M with instrs := r.1 }, r.2.2)

/-- Claim C1 as stated, as a predicate on a module: at every step of the
reverse walk, every allocation origin of an `Out` operand is recorded in the
step's `outBuffers`, and when the instruction also reads it through an `In`
operand, it is back in the live set after phase 1. -/
def claimC1 (M : Module) : Prop :=
  ∀ st ∈ (shareBuffers M).2, ∀ a ∈ st.outOrigins,
    a ∈ st.outBufs ∧ (a ∈ st.inOrigins → a ∈ st.liveAfter1)

/-- A module with a single allocation `0` and one instruction that writes and
reads it, `(0, Out), (0, In)`, with nothing after it; at the point of the
reverse walk the allocation is not live. -/
def MC1 : Module :=
  { weights := [],
    instrs := [⟨0, IKind.allocK, 7, []⟩,
               ⟨1, IKind.genericK, 7, [(0, OperandKind.Out), (0, OperandKind.In)]⟩],
    nextId := 2 }

/-- A concrete module for the C10 witness: weight `5`, allocation `0`, a
splat writing the allocation, a copy of the allocation into the weight, and
the matching dealloc. -/
def MC10 : Module :=
  { weights := [⟨5, Mutability.Mutable, 7⟩],
    instrs := [⟨0, IKind.allocK, 7, []⟩,
               ⟨1, IKind.splatK, 7, [(0, OperandKind.Out)]⟩,
               ⟨2, IKind.copyK, 7, [(5, OperandKind.Out), (0, OperandKind.In)]⟩,
               ⟨3, IKind.deallocK, 7, [(0, OperandKind.Out)]⟩],
    nextId := 4 }

/-! ### Liveness intervals (`calculateLiveIntervals`) -/

/-- A live interval `(begin, end)` of instruction indices
(IROptimizer.cpp line 36). -/
abbrev Interval := Nat × Nat

/-- The liveness map: each tracked location is mapped to its interval list
(IROptimizer.cpp line 39, `LiveIntervalsMap`). -/
abbrev LiveMap := List (Nat × List Interval)

/-- Rank of an operand kind under the C++ `std::sort` over
`Operand = std::pair<Value*, OperandKind>`: the sort comment at
IROptimizer.cpp lines 412-417 states the resulting per-value order
`In, InOut, Out`. -/
def kindIdx : OperandKind → Nat
  | OperandKind.In => 0
  | OperandKind.InOut => 1
  | OperandKind.Out => 2

/-- The lexicographic operand order used by the operand sort of
`calculateLiveIntervals`: by value, then by kind rank. -/
def opLE (a b : Operand) : Prop :=
  a.1 < b.1 ∨ (a.1 = b.1 ∧ kindIdx a.2 ≤ kindIdx b.2)

instance : DecidableRel opLE := fun a b => by unfold opLE; exact inferInstance

instance : IsTotal Operand opLE := by
  constructor
  intro a b
  unfold opLE
  by_cases h : a.1 < b.1
  · exact Or.inl (Or.inl h)
  · by_cases h2 : b.1 < a.1
    · exact Or.inr (Or.inl h2)
    · have he : a.1 = b.1 := by omega
      by_cases h3 : kindIdx a.2 ≤ kindIdx b.2
      · exact Or.inl (Or.inr ⟨he, h3⟩)
      · exact Or.inr (Or.inr ⟨he.symm, by omega⟩)

instance : IsTrans Operand opLE := by
  constructor
  intro a b c hab hbc
  unfold opLE at hab hbc ⊢
  rcases hab with h | h <;> rcases hbc with h2 | h2
  · exact Or.inl (h.trans h2)
  · exact Or.inl (h2.1 ▸ h)
  · exact Or.inl (h.1 ▸ h2)
  · exact Or.inr ⟨h.1.trans h2.1, h.2.trans h2.2⟩

/-- The operand sort of `calculateLiveIntervals` (IROptimizer.cpp line 418):
`std::sort(SortedOperands.begin(), SortedOperands.end())`. -/
def sortOps (ops : List Operand) : List Operand :=
  List.insertionSort opLE ops

/-- The `loc` resolution of `calculateLiveIntervals`
(IROptimizer.cpp lines 423-434): an `AllocActivation` is tracked, a
`Constant` weight is skipped, a mutable weight is tracked, anything else
(e.g. a `TensorView`) is skipped. -/
def locOf (M : Module) (v : Nat) : Option Nat :=
  if isAllocValue M.instrs v then some v
  else
    match weightMut M v with
    | some Mutability.Mutable => some v
    | some Mutability.Constant => none
    | none => none

/-- Look up the interval list of a location. -/
def lookupLI (m : LiveMap) (v : Nat) : Option (List Interval) :=
  (m.find? (fun e => e.1 == v)).map (fun e => e.2)

/-- Replace the interval list of an existing key. -/
def updateLI (m : LiveMap) (v : Nat) (ivs : List Interval) : LiveMap :=
  m.map (fun e => if e.1 == v then (e.1, ivs) else e)

/-- One sorted operand of `calculateLiveIntervals`
(IROptimizer.cpp lines 420-465): open a fresh interval at the first
reference; otherwise extend the last interval unless the use is a write into
a degenerate interval, and close/reopen on a write. -/
def liveOpStep (M : Module) (instIdx : Nat) (m : LiveMap) (o : Operand) :
    LiveMap :=
  match locOf M o.1 with
  | none => m
  | some loc =>
    match lookupLI m loc with
    | none => m ++ [(loc, [(instIdx, instIdx)])]
    | some ivs =>
      match ivs.getLast? with
      | none => updateLI m loc [(instIdx, instIdx)]
      | some lastIv =>
        let ext := if o.2 ≠ OperandKind.Out ∨ lastIv.2 ≠ lastIv.1
          then (lastIv.1, instIdx) else lastIv
        let ivs' := if o.2 = OperandKind.Out
          then ivs.dropLast ++ [ext, (instIdx, instIdx)]
          else ivs.dropLast ++ [ext]
        updateLI m loc ivs'

/-- Process one instruction of `calculateLiveIntervals`: fold the per-operand
step over the sorted operand list. -/
def processInstrLI (M : Module) (m : LiveMap) (instIdx : Nat) (I : Instr) :
    LiveMap :=
  (sortOps I.ops).foldl (liveOpStep M instIdx) m

/-- The forward walk of `calculateLiveIntervals`
(IROptimizer.cpp lines 402-466): the index advances with every instruction
(the `++instIdx` sits in the for-loop increment), while `DeallocActivation`
instructions are skipped for processing. -/
def liWalk (M : Module) : List Instr → Nat → LiveMap → LiveMap
  | [], _, m => m
  | I :: rest, i, m =>
    liWalk M rest (i + 1)
      (if I.kind = IKind.deallocK then m else processInstrLI M m i I)

/-- The final fixup of `calculateLiveIntervals`
(IROptimizer.cpp lines 468-477): extend the last interval of every
`WeightVar` to the program end. -/
def weightExtendLI (M : Module) (m : LiveMap) (total : Nat) : LiveMap :=
  m.map (fun e =>
    if isWeightId M e.1 then
      match e.2.getLast? with
      | none => e
      | some lastIv => (e.1, e.2.dropLast ++ [(lastIv.1, total)])
    else e)

/-- `calculateLiveIntervals` (IROptimizer.cpp lines 394-478). -/
def calculateLiveIntervals (M : Module) : LiveMap :=
  weightExtendLI M (liWalk M M.instrs 0 []) M.instrs.length

/-- The liveness walk as claim C2 describes it: identical to `liWalk` except
that a `DeallocActivation` does not advance the running index, and the
program end used for the weight extension is the resulting count of
non-dealloc instructions. Defined only to compare with the code-faithful
`calculateLiveIntervals`. -/
def liWalkClaimed (M : Module) : List Instr → Nat → LiveMap → Nat × LiveMap
  | [], i, m => (i, m)
  | I :: rest, i, m =>
    if I.kind = IKind.deallocK then liWalkClaimed M rest i m
    else liWalkClaimed M rest (i + 1) (processInstrLI M m i I)

/-- The interval map claim C2 predicts (dealloc instructions do not consume
indices). -/
def claimedLiveIntervals (M : Module) : LiveMap :=
  let r := liWalkClaimed M M.instrs 0 []
  weightExtendLI M r.2 r.1

/-- Counterexample module for C2: an allocation written by a splat, its
dealloc, then a splat writing the mutable weight `1`. Under the code's
indexing the weight's interval starts at raw position 3; under the claimed
indexing it would start at 2. -/
def MC2 : Module :=
  { weights := [⟨1, Mutability.Mutable, 7⟩],
    instrs := [⟨0, IKind.allocK, 7, []⟩,
               ⟨2, IKind.splatK, 7, [(0, OperandKind.Out)]⟩,
               ⟨3, IKind.deallocK, 7, [(0, OperandKind.Out)]⟩,
               ⟨4, IKind.splatK, 7, [(1, OperandKind.Out)]⟩],
    nextId := 5 }

/-- Does some interval of the list cover index `i`? -/
def covers (ivs : List Interval) (i : Nat) : Prop :=
  ∃ iv ∈ ivs, iv.1 ≤ i ∧ i ≤ iv.2

/-- Is `v` a location in the sense of the spec's data model: a `WeightVar`
(of any mutability) or an `AllocActivation`? -/
def isLocationValue (M : Module) (v : Nat) : Bool :=
  isAllocValue M.instrs v || isWeightId M v

/-- Claim C4 as stated: the recorded intervals of every operand-referenced
location cover every index at which the location appears as an operand of a
non-dealloc instruction. -/
def claimC4 (M : Module) : Prop :=
  ∀ p ∈ M.instrs.enumFrom 0, p.2.kind ≠ IKind.deallocK →
    ∀ o ∈ p.2.ops, isLocationValue M o.1 = true →
      covers ((lookupLI (calculateLiveIntervals M) o.1).getD []) p.1

/-- Counterexample module for C4: a `Constant` weight `5` read by one
instruction. Constant weights are skipped by `calculateLiveIntervals`, so the
location `5` has no recorded interval at all. -/
def MC4 : Module :=
  { weights := [⟨5, Mutability.Constant, 7⟩],
    instrs := [⟨0, IKind.genericK, 7, [(5, OperandKind.In)]⟩],
    nextId := 1 }

/-! ### Copy propagation -/

/-- The single writer of a value (IROptimizer.cpp lines 321-346): scan all
uses, skip deallocs and read-only uses; exactly one writing use yields its
instruction, more than one (even inside one instruction) yields none. -/
def getSingleWriter (L : List Instr) (v : Nat) : Option Nat :=
  let writers := L.foldl (fun acc I =>
    if I.kind = IKind.deallocK then acc
    else acc ++ I.ops.filterMap (fun o =>
      if o.1 = v ∧ o.2 ≠ OperandKind.In then some I.iid else none)) []
  match writers with
  | [w] => some w
  | _ => none

/-- The interval of the list covering `instIdx`
(IROptimizer.cpp lines 482-489). -/
def getEnclosingInterval (ivs : List Interval) (instIdx : Nat) :
    Option Interval :=
  ivs.find? (fun iv => decide (iv.1 ≤ instIdx ∧ instIdx ≤ iv.2))

/-- `isEnclosedInside(LHS, RHS)`: RHS is strictly enclosed in LHS
(IROptimizer.cpp lines 492-494). -/
def isEnclosedInside (lhs rhs : Interval) : Prop :=
  lhs.1 < rhs.1 ∧ rhs.2 ≤ lhs.2

instance (lhs rhs : Interval) : Decidable (isEnclosedInside lhs rhs) := by
  unfold isEnclosedInside
  exact inferInstance

/-- `replaceAllUsesWith` of copy propagation (IROptimizer.cpp lines
496-518): walk the stream with a running index while `instIdx ≤ I.second`;
inside the interval, rewrite every operand referencing `val` to `with_`,
except at index `I.first` when the operand kind is not `Out`. -/
def replaceAllUsesWith (val with_ : Nat) (I : Interval) :
    List Instr → Nat → List Instr
  | [], _ => []
  | J :: rest, instIdx =>
    if I.2 < instIdx then J :: rest
    else if instIdx < I.1 then
      J :: replaceAllUsesWith val with_ I rest (instIdx + 1)
    else
      { J with ops := J.ops.map (fun o =>
          if o.1 = val ∧ ¬(instIdx = I.1 ∧ o.2 ≠ OperandKind.Out)
          then (with_, o.2) else o) } ::
        replaceAllUsesWith val with_ I rest (instIdx + 1)

/-- Destination of a copy: operand 0 (`CopyInst::getDest`). -/
def copyDest (ci : Instr) : Nat := ((ci.ops[0]?).getD (0, OperandKind.Out)).1

/-- Source of a copy: operand 1 (`CopyInst::getSrc`). -/
def copySrc (ci : Instr) : Nat := ((ci.ops[1]?).getD (0, OperandKind.In)).1

/-- Process one copy instruction of `copyPropagation`
(IROptimizer.cpp lines 545-695). Returns the (possibly rewritten) stream and
whether the copy was marked for erasure. Case A:
`src` is a weight — propagate only if it is `Constant`, `dest`'s single
writer is this copy, and `dest` is not a weight; then all non-dealloc users
of `dest` are rewritten to `src`. Case B: both interval lookups must
succeed, and `SI.end ≤ DI.begin` or `DI` strictly enclosed in `SI`; then
`replaceAllUsesWith` rewrites `src` to `dest` inside `SI`. -/
def cpProcessCopy (M : Module) (ivm : LiveMap) (L : List Instr)
    (instIdx : Nat) (ci : Instr) : List Instr × Bool :=
  let src := copySrc ci
  let dest := copyDest ci
  if isWeightId M src then
    if weightMut M src = some Mutability.Mutable ∨
        getSingleWriter L dest ≠ some ci.iid ∨ isWeightId M dest then
      (L, false)
    else (replaceAllNonDeallocUsersWith L dest src, true)
  else
    let srcIntervals := (lookupLI ivm src).getD []
    let destIntervals := (lookupLI ivm dest).getD []
    if srcIntervals = [] ∨ destIntervals = [] then (L, false)
    else
      match getEnclosingInterval srcIntervals instIdx with
      | none => (L, false)
      | some SI =>
        match getEnclosingInterval destIntervals instIdx with
        | none => (L, false)
        | some DI =>
          if SI.2 ≤ DI.1 ∨ isEnclosedInside SI DI then
            (replaceAllUsesWith src dest SI L 0, true)
          else (L, false)

/-- The scan of `copyPropagation` (IROptimizer.cpp lines 543-696): the index
advances with every instruction; each copy is processed in place, and copies
marked for erasure are collected. `n` is the number of instructions left to
visit. -/
def cpLoop (M : Module) (ivm : LiveMap) :
    Nat → Nat → List Instr → List Nat → List Instr × List Nat
  | 0, _, L, er => (L, er)
  | n + 1, i, L, er =>
    match L[i]? with
    | none => (L, er)
    | some ci =>
      if ci.kind = IKind.copyK then
        let r := cpProcessCopy M ivm L i ci
        cpLoop M ivm n (i + 1) r.1 (if r.2 then er ++ [ci.iid] else er)
      else cpLoop M ivm n (i + 1) L er

/-- `eraseInstructions` (IROptimizer.cpp lines 523-529): erase each
collected instruction from the stream, by identity. -/
def eraseInstructions (L : List Instr) (ids : List Nat) : List Instr :=
  ids.foldl (fun acc id => acc.eraseP (fun I => I.iid == id)) L

/-- `copyPropagation` (IROptimizer.cpp lines 532-700): compute the interval
map once, scan for copies, erase the marked copies at the end. -/
def copyPropagation (M : Module) : Module :=
  let ivm := calculateLiveIntervals M
  let r := cpLoop M ivm M.instrs.length 0 M.instrs []
  { M with instrs := eraseInstructions r.1 r.2 }

/-- Claim C3's description of the Case-B rewrite, written from the spec's
words: inside the index range of `SI`, every operand referencing `src` is
rewritten to `dest`, except operands at index `SI.begin` whose kind is not
`Out`. Defined to be compared with the code-faithful `replaceAllUsesWith`. -/
def specRewriteB (L : List Instr) (src dest : Nat) (SI : Interval) :
    List Instr :=
  (L.enumFrom 0).map (fun p =>
    if SI.1 ≤ p.1 ∧ p.1 ≤ SI.2 then
      { p.2 with ops := p.2.ops.map (fun o =>
          if o.1 = src ∧ ¬(p.1 = SI.1 ∧ o.2 ≠ OperandKind.Out)
          then (dest, o.2) else o) }
    else p.2)

/-- Concrete module for the C3 witness (spec scenario S4-like): allocations
`0` and `1`, a splat writing `0`, a read of `0`, a copy `1 ← 0`, a read of
`1`, and the two deallocs. -/
def MC3 : Module :=
  { weights := [],
    instrs := [⟨0, IKind.allocK, 7, []⟩,
               ⟨1, IKind.allocK, 7, []⟩,
               ⟨2, IKind.splatK, 7, [(0, OperandKind.Out)]⟩,
               ⟨3, IKind.genericK, 7, [(0, OperandKind.In)]⟩,
               ⟨4, IKind.copyK, 7, [(1, OperandKind.Out), (0, OperandKind.In)]⟩,
               ⟨5, IKind.genericK, 7, [(1, OperandKind.In)]⟩,
               ⟨6, IKind.deallocK, 7, [(0, OperandKind.Out)]⟩,
               ⟨7, IKind.deallocK, 7, [(1, OperandKind.Out)]⟩],
    nextId := 8 }

/-! ### Hoist-dealloc -/

/-- Set a key of an association list (like `std::unordered_map::operator[]`
assignment): replace the existing entry or append a new one. -/
def setAssoc (m : List (Nat × Nat)) (k v : Nat) : List (Nat × Nat) :=
  if (m.find? (fun e => e.1 == k)).isSome then
    m.map (fun e => if e.1 == k then (k, v) else e)
  else m ++ [(k, v)]

/-- Look up a key of an association list. -/
def lookupAssoc (m : List (Nat × Nat)) (k : Nat) : Option Nat :=
  (m.find? (fun e => e.1 == k)).map (fun e => e.2)

/-- Pass 1 of `hoistDealloc` (IROptimizer.cpp lines 48-72): map every
activation to its last non-dealloc user. Deallocs are skipped; an alloc
instruction seeds its own entry; for other instructions every operand with
an allocation origin (a use via a `TensorView` counts) updates the entry. -/
def lastUserMap (L : List Instr) : List (Nat × Nat) :=
  L.foldl (fun acc I =>
    if I.kind = IKind.deallocK then acc
    else if I.kind = IKind.allocK then setAssoc acc I.iid I.iid
    else I.ops.foldl (fun acc2 o =>
      match getAllocationOrigin L o.1 with
      | none => acc2
      | some a => setAssoc acc2 a I.iid) acc) []

/-- The allocation closed by a dealloc:
`cast<AllocActivationInst>(getOrigin(da->getOperand(0).first))`
(IROptimizer.cpp line 84). -/
def deallocAllocOf (L : List Instr) (d : Instr) : Nat :=
  originOf L ((d.ops[0]?).getD (0, OperandKind.Out)).1

/-- The id of the instruction immediately after the instruction with id `u`
(`std::next(where)`), if any. -/
def nextAfterId : List Instr → Nat → Option Nat
  | [], _ => none
  | [_], _ => none
  | x :: y :: rest, u =>
    if x.iid = u then some y.iid else nextAfterId (y :: rest) u

/-- Insert `d` immediately after the instruction with id `u`. -/
def insertAfterId : List Instr → Nat → Instr → List Instr
  | [], _, _ => []
  | x :: rest, u, d =>
    if x.iid = u then x :: d :: rest else x :: insertAfterId rest u d

/-- Pass 2 of `hoistDealloc` for one dealloc (IROptimizer.cpp lines 75-93):
if the instruction right after the last user is already this dealloc, leave
the stream; otherwise move the dealloc to right after the last user. `L0` is
the original stream (used for origin resolution; moves do not change
operands), `L` the current one. -/
def hdStep (L0 : List Instr) (lu : List (Nat × Nat)) (L : List Instr)
    (d : Instr) : List Instr :=
  let a := deallocAllocOf L0 d
  match lookupAssoc lu a with
  | none => L
  | some u =>
    if nextAfterId L u = some d.iid then L
    else insertAfterId (L.eraseP (fun I => I.iid == d.iid)) u d

/-- `hoistDealloc` (IROptimizer.cpp lines 46-94): compute the last users,
then hoist each dealloc of the stream, in stream order. -/
def hoistDealloc (M : Module) : Module :=
  let lu := lastUserMap M.instrs
  let ds := M.instrs.filter (fun I => I.kind == IKind.deallocK)
  { M with instrs := ds.foldl (hdStep M.instrs lu) M.instrs }

/-- Does instruction `I` use allocation `a`, a use through a `TensorView`
counting as a use of the underlying allocation? -/
def usesAlloc (L : List Instr) (I : Instr) (a : Nat) : Bool :=
  I.ops.any (fun o => getAllocationOrigin L o.1 == some a)

/-- Index of the last non-dealloc instruction of the stream that uses
allocation `a`. -/
def lastUseIdx (R : List Instr) (a : Nat) : Option Nat :=
  (R.enumFrom 0).foldl (fun acc p =>
    if p.2.kind ≠ IKind.deallocK ∧ usesAlloc R p.2 a = true
    then some p.1 else acc) none

/-- Claim C5 as stated: after `hoistDealloc`, every dealloc sits at the
index immediately after the last non-dealloc use of its allocation. -/
def claimC5 (M : Module) : Prop :=
  ∀ p ∈ ((hoistDealloc M).instrs.enumFrom 0),
    p.2.kind = IKind.deallocK →
      ∀ q ∈ lastUseIdx (hoistDealloc M).instrs
          (deallocAllocOf (hoistDealloc M).instrs p.2), p.1 = q + 1

/-- Counterexample module for C5: allocations `0` and `1` whose last use is
the same instruction `2`; the deallocs follow in order `3, 4`. Hoisting
moves dealloc `4` directly behind instruction `2`, displacing dealloc `3`
from its previously correct position. -/
def MC5 : Module :=
  { weights := [],
    instrs := [⟨0, IKind.allocK, 7, []⟩,
               ⟨1, IKind.allocK, 7, []⟩,
               ⟨2, IKind.genericK, 7, [(0, OperandKind.In), (1, OperandKind.In)]⟩,
               ⟨3, IKind.deallocK, 7, [(0, OperandKind.Out)]⟩,
               ⟨4, IKind.deallocK, 7, [(1, OperandKind.Out)]⟩],
    nextId := 5 }

/-! ### Dead-allocation sweep -/

/-- `deleteDeadAllocs` (IROptimizer.cpp lines 138-183): three passes in
order, each collecting candidates with `copy_if` over the current stream and
erasing them: unused `TensorView`s, then `DeallocActivation`s whose alloc
has fewer than two users, then `AllocActivation`s with fewer than two
users. -/
def deleteDeadAllocs (M : Module) : Module :=
  let L := M.instrs
  let tvs := L.filter (fun I =>
    I.kind == IKind.tensorViewK && numUsers L I.iid == 0)
  let L1 := eraseInstructions L (tvs.map (fun I => I.iid))
  let das := L1.filter (fun I =>
    I.kind == IKind.deallocK &&
      decide (numUsers L1 (deallocAllocOf L1 I) < 2))
  let L2 := eraseInstructions L1 (das.map (fun I => I.iid))
  let aas := L2.filter (fun I =>
    I.kind == IKind.allocK && decide (numUsers L2 I.iid < 2))
  let L3 := eraseInstructions L2 (aas.map (fun I => I.iid))
  { M with instrs := L3 }

/-- First pass of claim C6's description of the sweep, written from the
spec's words: keep everything that is not a `TensorView` with zero users. -/
def ddaSpec1 (L : List Instr) : List Instr :=
  L.filter (fun I =>
    !(I.kind == IKind.tensorViewK && numUsers L I.iid == 0))

/-- Second pass: drop every `DeallocActivation` whose alloc has fewer than
two users, evaluated on the stream left by the first pass. -/
def ddaSpec2 (L : List Instr) : List Instr :=
  (ddaSpec1 L).filter (fun I =>
    !(I.kind == IKind.deallocK &&
      decide (numUsers (ddaSpec1 L) (deallocAllocOf (ddaSpec1 L) I) < 2)))

/-- Third pass: drop every `AllocActivation` with fewer than two users,
evaluated on the stream left by the second pass. -/
def ddaSpec (L : List Instr) : List Instr :=
  (ddaSpec2 L).filter (fun I =>
    !(I.kind == IKind.allocK && decide (numUsers (ddaSpec2 L) I.iid < 2)))

/-- Concrete module for the C6 witness: a dangling `TensorView` of the
allocation, a splat writing the weight, and the dealloc; the sweep removes
view, dealloc and alloc, in that order. -/
def MC6 : Module :=
  { weights := [⟨9, Mutability.Mutable, 7⟩],
    instrs := [⟨0, IKind.allocK, 7, []⟩,
               ⟨1, IKind.tensorViewK, 7, [(0, OperandKind.In)]⟩,
               ⟨2, IKind.splatK, 7, [(9, OperandKind.Out)]⟩,
               ⟨3, IKind.deallocK, 7, [(0, OperandKind.Out)]⟩],
    nextId := 4 }

/-! ### Sink-allocas, weight mutability, dead-store elimination -/

/-- `sinkAllocas` (IROptimizer.cpp lines 97-135): remove every
`AllocActivation` from the stream, then reinsert each immediately before the
first instruction that references it directly as an operand (allocs found
for several operands of one instruction are inserted in operand order).
Allocs never referenced are dropped (the C++ asserts that the leftover queue
is empty). -/
def sinkAllocas (M : Module) : Module :=
  let step := fun (st : List Instr × List Instr) (I : Instr) =>
    let found := I.ops.foldl (fun (st2 : List Instr × List Instr) o =>
      match st2.2.find? (fun A => A.iid == o.1) with
      | some A => (st2.1 ++ [A], st2.2.eraseP (fun x => x.iid == A.iid))
      | none => st2) ([], st.2)
    (st.1 ++ found.1 ++ [I], found.2)
  let r := (M.instrs.filter (fun I => !(I.kind == IKind.allocK))).foldl step
    ([], M.instrs.filter (fun I => I.kind == IKind.allocK))
  { M with instrs := r.1 }

/-- `makeWeightsConst` (IROptimizer.cpp lines 348-369): a weight whose every
use is an `In` operand becomes `Constant`, every other weight `Mutable`. -/
def makeWeightsConst (M : Module) : Module :=
  { M with weights := M.weights.map (fun w =>
      if M.instrs.all (fun I => I.ops.all (fun o =>
          !(o.1 == w.wid) || (o.2 == OperandKind.In)))
      then { w with wmut := Mutability.Constant }
      else { w with wmut := Mutability.Mutable }) }

/-- Analysis state of dead-store elimination for one memory location
(IROptimizer.cpp lines 716-721). -/
structure DSEState where
  lastRead : Option Nat
  lastWrite : Option Nat
deriving DecidableEq, Repr

/-- Look up a location's DSE state (default-constructed when absent, like
`std::unordered_map::operator[]`). -/
def lookupDSE (m : List (Nat × DSEState)) (v : Nat) : DSEState :=
  ((m.find? (fun e => e.1 == v)).map (fun e => e.2)).getD ⟨none, none⟩

/-- Set a location's DSE state. -/
def setDSE (m : List (Nat × DSEState)) (v : Nat) (s : DSEState) :
    List (Nat × DSEState) :=
  if (m.find? (fun e => e.1 == v)).isSome then
    m.map (fun e => if e.1 == v then (e.1, s) else e)
  else m ++ [(v, s)]

/-- One instruction of the reverse walk of `eliminateDeadStores`
(IROptimizer.cpp lines 735-780): skip alloc/dealloc/tensorview; count
mutated operands and mutated-but-unread operands while updating the write
state; erase the instruction when every mutated operand is unread, else
record the reads. Returns the updated `(erasedIds, state)`. -/
def dseStep (L : List Instr) (acc : List Nat × List (Nat × DSEState))
    (I : Instr) : List Nat × List (Nat × DSEState) :=
  if I.kind = IKind.deallocK ∨ I.kind = IKind.allocK ∨
      I.kind = IKind.tensorViewK then acc
  else
    let r := I.ops.foldl (fun (st : Nat × Nat × List (Nat × DSEState)) o =>
      if o.2 ≠ OperandKind.In then
        let org := originOf L o.1
        let cur := lookupDSE st.2.2 org
        let unread := if cur.lastRead = none then st.2.1 + 1 else st.2.1
        (st.1 + 1, unread, setDSE st.2.2 org ⟨none, some I.iid⟩)
      else st) (0, 0, acc.2)
    if 0 < r.1 ∧ r.1 = r.2.1 then (acc.1 ++ [I.iid], r.2.2)
    else
      let m3 := I.ops.foldl (fun m2 o =>
        if o.2 ≠ OperandKind.Out then
          let org := originOf L o.1
          setDSE m2 org ⟨some I.iid, (lookupDSE m2 org).lastWrite⟩
        else m2) r.2.2
      (acc.1, m3)

/-- `eliminateDeadStores` (IROptimizer.cpp lines 711-783). The seeding of a
synthetic last read for each weight dereferences
`*std::prev(instrs.end())`; on an empty stream with at least one weight this
is undefined behaviour in the C++, modelled here as `none`. -/
def eliminateDeadStores (M : Module) : Option Module :=
  match M.instrs.getLast? with
  | none => if M.weights.isEmpty then some M else none
  | some lastI =>
    let st0 := M.weights.foldl (fun m w =>
      setDSE m w.wid ⟨some lastI.iid, none⟩) []
    let r := M.instrs.reverse.foldl (dseStep M.instrs) ([], st0)
    some { M with instrs := eraseInstructions M.instrs r.1 }

/-! ### Debug instrumentation -/

/-- Insert `DebugPrint` instructions around one instruction
(IROptimizer.cpp lines 802-822): before it one print per non-`Out` operand,
after it one per non-`In` operand, in operand order. Fresh instruction ids
come from the counter. -/
def instrumentOne (nid : Nat) (I : Instr) : List Instr × Nat :=
  let befores := I.ops.filter (fun o => !(o.2 == OperandKind.Out))
  let afters := I.ops.filter (fun o => !(o.2 == OperandKind.In))
  let bl := (befores.enumFrom nid).map (fun p =>
    (⟨p.1, IKind.debugPrintK, 0, [(p.2.1, OperandKind.In)]⟩ : Instr))
  let al := (afters.enumFrom (nid + befores.length)).map (fun p =>
    (⟨p.1, IKind.debugPrintK, 0, [(p.2.1, OperandKind.In)]⟩ : Instr))
  (bl ++ [I] ++ al, nid + befores.length + afters.length)

/-- `performDebugInstrumentation` (IROptimizer.cpp lines 789-825): when the
flag is set, wrap every instruction that is not a `DebugPrint`, alloc or
dealloc with before/after prints. -/
def performDebugInstrumentation (flag : Bool) (M : Module) : Module :=
  if flag then
    let r := M.instrs.foldl (fun (st : List Instr × Nat) I =>
      if I.kind == IKind.debugPrintK || I.kind == IKind.allocK ||
          I.kind == IKind.deallocK then (st.1 ++ [I], st.2)
      else
        let o := instrumentOne st.2 I
        (st.1 ++ o.1, o.2)) ([], M.nextId)
    { M with instrs := r.1, nextId := r.2 }
  else M

/-! ### Peephole optimizations, verify, driver -/

/-- Value of operand `i` of an instruction. -/
def opVal (I : Instr) (i : Nat) : Nat :=
  ((I.ops[i]?).getD (0, OperandKind.In)).1

/-- The scan of `performPeepholeOptimizations` (IROptimizer.cpp lines
828-943). `done` holds the already visited prefix, `rest` the instructions
still to visit; newly built replacement instructions are pushed onto `rest`
when the C++ re-points `it` at them (`it = M.moveInstruction(cur, New)`), and
onto `done` when it does not (the retyping `TensorView` of the transpose
rewrite). The fuel only bounds the recursion; each original instruction
gives rise to at most four visits (a reshape spawns a view and a copy, each
visited once; a swapped `ElementMax` is revisited once and its guard then
fails), so the initial fuel `4 * length + 4` is never exhausted. -/
def peepLoop (M : Module) : Nat → Nat → List Instr → List Instr →
    List Instr × Nat
  | 0, nid, done, rest => (done ++ rest, nid)
  | fuel + 1, nid, done, rest =>
    match rest with
    | [] => (done, nid)
    | I :: rest' =>
      let full := done ++ I :: rest'
      match I.kind with
      | IKind.poolMaxWithXYK =>
        let srcXY := opVal I 2
        if isAllocValue full srcXY && (numUsers full srcXY == 2) then
          peepLoop M fuel (nid + 1) done
            ((⟨nid, IKind.poolMaxK, I.ty, I.ops.take 2⟩ : Instr) :: rest')
        else peepLoop M fuel nid (done ++ [I]) rest'
      | IKind.softMaxWithEK =>
        let eo := originOf full (opVal I 3)
        let isUsedE := full.any (fun J => !(J.iid == I.iid) &&
          J.ops.any (fun o => o.1 == eo && !(o.2 == OperandKind.Out)))
        if isUsedE then peepLoop M fuel nid (done ++ [I]) rest'
        else
          peepLoop M fuel (nid + 1) done
            ((⟨nid, IKind.softMaxK, I.ty, I.ops.take 3⟩ : Instr) :: rest')
      | IKind.reshapeK =>
        let dest := opVal I 0
        let src := opVal I 1
        let tvi : Instr :=
          ⟨nid, IKind.tensorViewK, typeOf M full dest, [(src, OperandKind.In)]⟩
        let ci : Instr := ⟨nid + 1, IKind.copyK, typeOf M full dest,
          [(dest, OperandKind.Out), (nid, OperandKind.In)]⟩
        peepLoop M fuel (nid + 2) done (tvi :: ci :: rest')
      | IKind.transposeK =>
        let dest := opVal I 0
        let src := opVal I 1
        let isSplatWriter := match getSingleWriter full src with
          | some w =>
            match findInstr full w with
            | some W => W.kind == IKind.splatK
            | none => false
          | none => false
        if isSplatWriter then
          if typeOf M full src == typeOf M full dest then
            let ci : Instr := ⟨nid, IKind.copyK, typeOf M full dest,
              [(dest, OperandKind.Out), (src, OperandKind.In)]⟩
            peepLoop M fuel (nid + 1) done (ci :: rest')
          else
            let tvi : Instr := ⟨nid, IKind.tensorViewK,
              typeOf M full dest, [(src, OperandKind.In)]⟩
            let ci : Instr := ⟨nid + 1, IKind.copyK, typeOf M full dest,
              [(dest, OperandKind.Out), (nid, OperandKind.In)]⟩
            peepLoop M fuel (nid + 2) (done ++ [tvi]) (ci :: rest')
        else peepLoop M fuel nid (done ++ [I]) rest'
      | IKind.elementMaxK =>
        let lhs := opVal I 1
        let rhs := opVal I 2
        let lhsSplat := match getSingleWriter full lhs with
          | some w =>
            match findInstr full w with
            | some W => W.kind == IKind.splatK
            | none => false
          | none => false
        let rhsSplat := match getSingleWriter full rhs with
          | some w2 =>
            match findInstr full w2 with
            | some W2 => W2.kind == IKind.splatK
            | none => false
          | none => false
        if lhsSplat && !rhsSplat then
          peepLoop M fuel (nid + 1) done
            ((⟨nid, IKind.elementMaxK, I.ty,
              [(opVal I 0, OperandKind.Out), (rhs, OperandKind.In),
               (lhs, OperandKind.In)]⟩ : Instr) :: rest')
        else peepLoop M fuel nid (done ++ [I]) rest'
      | IKind.tensorViewK =>
        let src := opVal I 0
        if I.ty == typeOf M full src then
          let rep := fun (L : List Instr) =>
            replaceAllNonDeallocUsersWith L I.iid src
          peepLoop M fuel nid (rep done ++ [(rep [I]).headD I]) (rep rest')
        else peepLoop M fuel nid (done ++ [I]) rest'
      | IKind.copyK =>
        if originOf full (opVal I 1) == originOf full (opVal I 0) then
          peepLoop M fuel nid done rest'
        else peepLoop M fuel nid (done ++ [I]) rest'
      | _ => peepLoop M fuel nid (done ++ [I]) rest'

/-- `performPeepholeOptimizations` (IROptimizer.cpp lines 828-943). -/
def performPeepholeOptimizations (M : Module) : Module :=
  let r := peepLoop M (4 * M.instrs.length + 4) M.nextId [] M.instrs
  { M with instrs := r.1, nextId := r.2 }

/-- Modelled from the spec: §3 invariants I1-I3 of `Module::verify` (the
missing IR support): every operand's origin chain terminates at a weight or
an allocation present in the module; a `Constant` weight appears only as an
`In` operand; every dealloc closes an allocation present in the stream. -/
def verify (M : Module) : Bool :=
  (M.instrs.all (fun I => I.ops.all (fun o =>
    let org := originOf M.instrs o.1
    isAllocValue M.instrs org || isWeightId M org))) &&
  (M.instrs.all (fun I => I.ops.all (fun o =>
    match weightMut M o.1 with
    | some Mutability.Constant => o.2 == OperandKind.In
    | _ => true))) &&
  (M.instrs.all (fun I =>
    if I.kind == IKind.deallocK then
      isAllocValue M.instrs (deallocAllocOf M.instrs I)
    else true))

/-- Compilation mode, carried through `optimize` without altering the pass
set. -/
inductive CompilationMode
  | Train
  | Infer
deriving DecidableEq, Repr

/-- `glow::optimize` (IROptimizer.cpp lines 945-982): verify, return
unchanged when the `optimize-ir` flag is off, else run the pass pipeline and
verify again. A failing verify (a fatal assert in the C++) and the undefined
behaviour of `eliminateDeadStores` on an empty stream are modelled as
`none`. -/
def optimize (mode : CompilationMode) (optimizeIR instrumentDebug : Bool)
    (M : Module) : Option Module :=
  if verify M then
    if !optimizeIR then some M
    else
      let m1 := performPeepholeOptimizations M
      let m2 := (shareBuffers m1).1
      let m3 := deleteDeadAllocs m2
      let m4 := hoistDealloc m3
      let m5 := sinkAllocas m4
      let m6 := makeWeightsConst m5
      let m7 := copyPropagation m6
      let m8 := performPeepholeOptimizations m7
      let m9 := deleteDeadAllocs m8
      match eliminateDeadStores m9 with
      | none => none
      | some m10 =>
        let m11 := deleteDeadAllocs m10
        let m12 := performDebugInstrumentation instrumentDebug m11
        if verify m12 then some m12 else none
  else none

/-- The failing input of claim C7: an empty instruction stream with one
weight. -/
def MC7 : Module := ⟨[⟨0, Mutability.Mutable, 7⟩], [], 1⟩

/-- The failing input of claim C8: two allocations of different types whose
last use is the same instruction (a compute op reading both and writing the
weight `9`). Their deallocs share the position behind that last use, and
`hoistDealloc` restacks them in the opposite order on every run. -/
def MC8 : Module :=
  { weights := [⟨9, Mutability.Mutable, 7⟩],
    instrs := [⟨0, IKind.allocK, 7, []⟩,
               ⟨1, IKind.allocK, 8, []⟩,
               ⟨2, IKind.splatK, 7, [(0, OperandKind.Out)]⟩,
               ⟨3, IKind.splatK, 8, [(1, OperandKind.Out)]⟩,
               ⟨4, IKind.genericK, 7, [(9, OperandKind.Out), (0, OperandKind.In),
                                       (1, OperandKind.In)]⟩,
               ⟨5, IKind.deallocK, 7, [(0, OperandKind.Out)]⟩,
               ⟨6, IKind.deallocK, 8, [(1, OperandKind.Out)]⟩],
    nextId := 10 }

/-! ### Theorems -/

/-- C1 (counterexample): in module `MC1` the single compute instruction has an
`Out` operand with allocation origin `0`, but since `0` is not in the live set
at that point of the reverse walk, `shareBuffers` does not record it in
`outBuffers` and the later `In` operand with the same origin does not put it
back into the live set — contradicting the claim as stated. -/
theorem claimC1_false : ¬ claimC1 MC1 := by
  unfold claimC1
  decide

/-- C1 (amended): in phase 1 of `shareBuffers`, for an operand whose value has
allocation origin `a`: an `Out` operand removes `a` from the live set and
records it in `outBuffers` precisely when `a` is in the live set (otherwise
both sets are unchanged); an `In` operand adds `a` back to the live set
precisely when `a` is in `outBuffers`; an `InOut` operand always adds `a` to
the live set. -/
theorem sbKillStep_characterization (L : List Instr) (v a : Nat)
    (live out : List Nat) (h : getAllocationOrigin L v = some a) :
    sbKillStep L (live, out) (v, OperandKind.Out)
      = (if a ∈ live then (live.erase a, insertNat a out) else (live, out)) ∧
    sbKillStep L (live, out) (v, OperandKind.In)
      = (if a ∈ out then (insertNat a live, out) else (live, out)) ∧
    sbKillStep L (live, out) (v, OperandKind.InOut) = (insertNat a live, out) := by
  refine ⟨?_, ?_, ?_⟩ <;> simp [sbKillStep, h]

/-- Witness for `sbKillStep_characterization` at a concrete input: with the
allocation `0` of `MC1` live, an `Out` operand on it kills it and records it
in `outBuffers`. -/
theorem sbKillStep_characterization_witness :
    getAllocationOrigin MC1.instrs 0 = some 0 ∧
    sbKillStep MC1.instrs ([0], []) (0, OperandKind.Out) = ([], [0]) := by
  refine ⟨by decide, ?_⟩
  have h := sbKillStep_characterization MC1.instrs 0 0 [0] [] (by decide)
  rw [h.1]
  decide

/-! #### Helper lemmas about the live-set machinery -/

theorem mem_insertNat_of_mem {a b : Nat} {s : List Nat} (h : a ∈ s) :
    a ∈ insertNat b s := by
  unfold insertNat
  split
  · exact h
  · exact List.mem_cons_of_mem _ h

theorem isAllocValue_exists_mem {L : List Instr} {a : Nat}
    (h : isAllocValue L a = true) : ∃ I ∈ L, I.iid = a := by
  unfold isAllocValue findInstr at h
  cases hf : L.find? (fun I => I.iid == a) with
  | none => rw [hf] at h; simp at h
  | some I =>
    refine ⟨I, List.mem_of_find?_eq_some hf, ?_⟩
    have hp := List.find?_some hf
    simpa using hp

theorem getAllocationOrigin_not_weight {M : Module} {L : List Instr}
    {v a : Nat} (hdisj : ∀ w ∈ M.weights, ∀ I ∈ L, I.iid ≠ w.wid)
    (h : getAllocationOrigin L v = some a) :
    ∀ w ∈ M.weights, w.wid ≠ a := by
  intro w hw
  unfold getAllocationOrigin at h
  by_cases hA : isAllocValue L (originOf L v) = true
  · rw [if_pos hA] at h
    have ha := Option.some.inj h
    obtain ⟨I, hI, hid⟩ := isAllocValue_exists_mem (ha ▸ hA)
    intro hcontra
    exact hdisj w hw I hI (hid.trans hcontra.symm)
  · rw [if_neg hA] at h
    exact absurd h (by simp)

theorem sbKillStep_weights {M : Module} {L : List Instr}
    (hdisj : ∀ w ∈ M.weights, ∀ I ∈ L, I.iid ≠ w.wid)
    {st : List Nat × List Nat} {o : Operand}
    (hlive : ∀ w ∈ M.weights, w.wid ∈ st.1) :
    ∀ w ∈ M.weights, w.wid ∈ (sbKillStep L st o).1 := by
  intro w hw
  cases hga : getAllocationOrigin L o.1 with
  | none =>
    simp only [sbKillStep, hga]
    exact hlive w hw
  | some ai =>
    have hne : w.wid ≠ ai := getAllocationOrigin_not_weight hdisj hga w hw
    simp only [sbKillStep, hga]
    split_ifs with h1 h2 h3 h4
    · exact (List.mem_erase_of_ne hne).mpr (hlive w hw)
    · exact hlive w hw
    · exact mem_insertNat_of_mem (hlive w hw)
    · exact mem_insertNat_of_mem (hlive w hw)
    · exact hlive w hw

theorem sbPhase1_weights {M : Module} {L : List Instr}
    (hdisj : ∀ w ∈ M.weights, ∀ I ∈ L, I.iid ≠ w.wid) :
    ∀ (ops : List Operand) (st : List Nat × List Nat),
      (∀ w ∈ M.weights, w.wid ∈ st.1) →
      ∀ w ∈ M.weights, w.wid ∈ (ops.foldl (sbKillStep L) st).1 := by
  intro ops
  induction ops with
  | nil => intro st h; simpa using h
  | cons o rest ih =>
    intro st h
    simp only [List.foldl_cons]
    exact ih _ (sbKillStep_weights hdisj h)

theorem sbPhase3_weights {L : List Instr} :
    ∀ (ops : List Operand) (live : List Nat),
      (∀ w ∈ (Ms : Module).weights, w.wid ∈ live) →
      ∀ w ∈ Ms.weights, w.wid ∈ sbPhase3 L ops live := by
  intro ops
  induction ops with
  | nil => intro live h; simpa [sbPhase3] using h
  | cons o rest ih =>
    intro live h
    simp only [sbPhase3, List.foldl_cons]
    apply ih
    intro w hw
    cases hga : getAllocationOrigin L o.1 with
    | none => simpa [hga] using h w hw
    | some ai =>
      simp only [hga]
      split
      · exact h w hw
      · exact mem_insertNat_of_mem (h w hw)

theorem tryToShareChoose_dest_not_live {M : Module} {L : List Instr}
    {live : List Nat} {I : Instr} {p : Nat × Nat}
    (h : tryToShareChoose M L live I = some p) : p.1 ∉ live := by
  unfold tryToShareChoose at h
  obtain ⟨first, -, h2⟩ := List.exists_of_findSome?_eq_some h
  obtain ⟨second, -, h3⟩ := List.exists_of_findSome?_eq_some h2
  cases hd : I.ops[first]? with
  | none => rw [hd] at h3; simp at h3
  | some dOp =>
    cases hs : I.ops[second]? with
    | none => rw [hd, hs] at h3; simp at h3
    | some sOp =>
      rw [hd, hs] at h3
      simp only at h3
      split_ifs at h3 with h4 h5 h6
      · rw [← Option.some.inj h3]
        exact h6.1

theorem mem_replaceAll {L : List Instr} {d s : Nat} {I : Instr}
    (h : I ∈ replaceAllNonDeallocUsersWith L d s) : ∃ J ∈ L, I.iid = J.iid := by
  unfold replaceAllNonDeallocUsersWith at h
  rcases List.mem_map.mp h with ⟨J, hJ, rfl⟩
  refine ⟨J, hJ, ?_⟩
  split
  · rfl
  · rfl

theorem wdisj_replaceAll {M : Module} {L : List Instr} {d s : Nat}
    (hdisj : ∀ w ∈ M.weights, ∀ I ∈ L, I.iid ≠ w.wid) :
    ∀ w ∈ M.weights, ∀ I ∈ replaceAllNonDeallocUsersWith L d s,
      I.iid ≠ w.wid := by
  intro w hw I hI
  obtain ⟨J, hJ, he⟩ := mem_replaceAll hI
  rw [he]
  exact hdisj w hw J hJ

theorem isWeightId_exists {M : Module} {v : Nat} (h : isWeightId M v = true) :
    ∃ w ∈ M.weights, w.wid = v := by
  unfold isWeightId at h
  obtain ⟨w, hw, hv⟩ := List.any_eq_true.mp h
  exact ⟨w, hw, by simpa using hv⟩

theorem sbWalk_invariant {M : Module} :
    ∀ (n : Nat) (L : List Instr) (live : List Nat),
      (∀ w ∈ M.weights, ∀ I ∈ L, I.iid ≠ w.wid) →
      (∀ w ∈ M.weights, w.wid ∈ live) →
      ∀ st ∈ (sbWalk M n L live).2.2,
        (∀ w ∈ M.weights, w.wid ∈ st.liveAfter1) ∧
        (∀ p, st.choice = some p → isWeightId M p.1 = false) := by
  intro n
  induction n with
  | zero =>
    intro L live _ _ st hst
    simp [sbWalk] at hst
  | succ n ih =>
    intro L live hdisj hlive st hst
    simp only [sbWalk] at hst
    cases hL : L[n]? with
    | none => rw [hL] at hst; simp at hst
    | some I =>
      rw [hL] at hst
      simp only [List.mem_cons] at hst
      have hlive1 : ∀ w ∈ M.weights, w.wid ∈ (sbPhase1 L I.ops live).1 :=
        sbPhase1_weights hdisj I.ops (live, []) hlive
      cases hst with
      | inl hhead =>
        subst hhead
        refine ⟨hlive1, ?_⟩
        intro p hp
        simp only [sbStepInstr] at hp
        by_contra hcontra
        have hWt : isWeightId M p.1 = true := by
          cases hb : isWeightId M p.1
          · exact absurd hb hcontra
          · rfl
        obtain ⟨w, hw, hv⟩ := isWeightId_exists hWt
        exact tryToShareChoose_dest_not_live hp (hv ▸ hlive1 w hw)
      | inr htail =>
        have hdisj' : ∀ w ∈ M.weights,
            ∀ J ∈ (sbStepInstr M L live n I).1, J.iid ≠ w.wid := by
          intro w hw J hJ
          simp only [sbStepInstr] at hJ
          cases hc : tryToShareChoose M L (sbPhase1 L I.ops live).1 I with
          | none => rw [hc] at hJ; exact hdisj w hw J hJ
          | some q => rw [hc] at hJ; exact wdisj_replaceAll hdisj w hw J hJ
        have hlive2 : ∀ w ∈ M.weights,
            w.wid ∈ (sbStepInstr M L live n I).2.1 := by
          intro w hw
          simp only [sbStepInstr]
          exact sbPhase3_weights _ _ (fun w hw => hlive1 w hw) w hw
        exact ih _ _ hdisj' hlive2 st htail

/-- C10: throughout the reverse walk of `shareBuffers`, every weight of the
module stays in the live set (weights are seeded before the walk, and the
`Out`-kind removal applies only to values with an allocation origin, never to
a `WeightVar`); consequently the in-place rewrite of
`tryToShareBuffersForInstr` never chooses a `WeightVar` as the value whose
users get replaced. The hypothesis states that value ids of the instruction
stream are distinct from weight ids, which holds for every well-formed module
since weights are not instructions. -/
theorem shareBuffers_weights_stay_live (M : Module)
    (hdisj : ∀ w ∈ M.weights, ∀ I ∈ M.instrs, I.iid ≠ w.wid) :
    ∀ st ∈ (shareBuffers M).2,
      (∀ w ∈ M.weights, w.wid ∈ st.liveAfter1) ∧
      (∀ p, st.choice = some p → isWeightId M p.1 = false) := by
  intro st hst
  have hlive0 : ∀ w ∈ M.weights,
      w.wid ∈ M.weights.foldl (fun s w => insertNat w.wid s) [] := by
    have hgen : ∀ (ws : List WeightV) (s : List Nat),
        (∀ a ∈ s, a ∈ ws.foldl (fun s w => insertNat w.wid s) s) ∧
        ∀ w ∈ ws, w.wid ∈ ws.foldl (fun s w => insertNat w.wid s) s := by
      intro ws
      induction ws with
      | nil => intro s; exact ⟨fun a ha => ha, by simp⟩
      | cons w rest ihw =>
        intro s
        constructor
        · intro a ha
          simp only [List.foldl_cons]
          exact (ihw (insertNat w.wid s)).1 a (mem_insertNat_of_mem ha)
        · intro w' hw'
          simp only [List.foldl_cons]
          cases List.mem_cons.mp hw' with
          | inl he =>
            subst he
            refine (ihw (insertNat w'.wid s)).1 w'.wid ?_
            unfold insertNat
            split
            · assumption
            · exact List.mem_cons_self _ _
          | inr ht => exact (ihw (insertNat w.wid s)).2 w' ht
    intro w hw
    exact (hgen M.weights []).2 w hw
  exact sbWalk_invariant M.instrs.length M.instrs _ hdisj hlive0 st hst

/-- Witness for `shareBuffers_weights_stay_live`: a concrete module with a
weight `5`, an allocation `0` and a compute instruction; the weight stays
live at every step of the walk and no in-place replacement targets it. -/
theorem shareBuffers_weights_stay_live_witness :
    (∀ w ∈ MC10.weights, ∀ I ∈ MC10.instrs, I.iid ≠ w.wid) ∧
    ∀ st ∈ (shareBuffers MC10).2,
      (∀ w ∈ MC10.weights, w.wid ∈ st.liveAfter1) ∧
      (∀ p, st.choice = some p → isWeightId MC10 p.1 = false) :=
  ⟨by decide, shareBuffers_weights_stay_live MC10 (by decide)⟩

/-! #### C2: instruction indexing and operand sorting -/

/-- C2 (counterexample): on module `MC2` the code-faithful
`calculateLiveIntervals` and the claimed variant (in which a
`DeallocActivation` does not advance the running index) disagree: the
`++instIdx` of the C++ for-loop increment runs for every instruction,
deallocs included, so the weight write after the dealloc is indexed 3, not
2. -/
theorem claimC2_false : calculateLiveIntervals MC2 ≠ claimedLiveIntervals MC2 := by
  decide

theorem liWalk_enumFrom (M : Module) :
    ∀ (L : List Instr) (i : Nat) (m : LiveMap),
      liWalk M L i m =
        ((L.enumFrom i).filter (fun p => p.2.kind != IKind.deallocK)).foldl
          (fun m p => processInstrLI M m p.1 p.2) m := by
  intro L
  induction L with
  | nil => intro i m; simp [liWalk]
  | cons I rest ih =>
    intro i m
    simp only [liWalk, List.enumFrom_cons, List.filter_cons]
    by_cases h : I.kind = IKind.deallocK
    · simp only [if_pos h, h, bne_self_eq_false]
      exact ih (i + 1) m
    · have hb : (I.kind != IKind.deallocK) = true := by
        simpa using h
      simp only [if_neg h, hb, List.foldl_cons]
      exact ih (i + 1) (processInstrLI M m i I)

/-- C2 (amended): in `calculateLiveIntervals` the running index advances
with every instruction of the stream — a `DeallocActivation` is skipped for
processing but still consumes its index — so the walk equals a fold over the
position-enumerated stream with the deallocs filtered out; and within each
instruction the operands are processed sorted by `(value, kind)` with kind
order `In < InOut < Out` (the sorted list is a permutation of the operand
list, sorted under the lexicographic order `opLE`). -/
theorem calculateLiveIntervals_indexing_and_sort :
    (∀ M : Module, calculateLiveIntervals M =
        weightExtendLI M
          (((M.instrs.enumFrom 0).filter
              (fun p => p.2.kind != IKind.deallocK)).foldl
            (fun m p => processInstrLI M m p.1 p.2) [])
          M.instrs.length) ∧
    (∀ ops : List Operand,
      (sortOps ops).Perm ops ∧ List.Sorted opLE (sortOps ops)) := by
  constructor
  · intro M
    unfold calculateLiveIntervals
    rw [liWalk_enumFrom]
  · intro ops
    exact ⟨List.perm_insertionSort opLE ops, List.sorted_insertionSort opLE ops⟩

/-! #### C4: interval coverage -/

/-- C4 (counterexample): in `MC4` the `Constant` weight `5` is
operand-referenced by the only (non-dealloc) instruction, but constant
weights are skipped by `calculateLiveIntervals`, so location `5` has no
recorded interval and index 0 is not covered. -/
theorem claimC4_false : ¬ claimC4 MC4 := by
  unfold claimC4 covers
  decide

theorem locOf_eq_self {M : Module} {v l : Nat} (h : locOf M v = some l) :
    l = v := by
  unfold locOf at h
  split at h
  · exact (Option.some.inj h).symm
  · split at h <;> first
      | exact (Option.some.inj h).symm
      | exact absurd h (by simp)

theorem eq_dropLast_append {α : Type} {l : List α} {a : α}
    (h : l.getLast? = some a) : l = l.dropLast ++ [a] := by
  have hne : l ≠ [] := by
    intro he
    rw [he] at h
    simp at h
  have hg := List.getLast?_eq_getLast l hne
  rw [h] at hg
  have := List.dropLast_concat_getLast hne
  rw [← Option.some.inj hg] at this
  exact this.symm

theorem lookupLI_some_mem {m : LiveMap} {v : Nat} {ivs : List Interval}
    (h : lookupLI m v = some ivs) : (v, ivs) ∈ m := by
  unfold lookupLI at h
  cases hf : m.find? (fun e => e.1 == v) with
  | none => rw [hf] at h; simp at h
  | some e =>
    rw [hf] at h
    have hm := List.mem_of_find?_eq_some hf
    have hk : e.1 = v := by simpa using List.find?_some hf
    have hv : e.2 = ivs := by simpa using h
    have : e = (v, ivs) := by
      rw [← hk, ← hv]
    exact this ▸ hm

theorem mem_updateLI {m : LiveMap} {v : Nat} {ivs : List Interval}
    {e' : Nat × List Interval} (h : e' ∈ updateLI m v ivs) :
    e' ∈ m ∨ e' = (v, ivs) := by
  unfold updateLI at h
  rcases List.mem_map.mp h with ⟨e, he, rfl⟩
  by_cases hk : (e.1 == v) = true
  · rw [if_pos hk]
    right
    have : e.1 = v := by simpa using hk
    rw [this]
  · rw [if_neg hk]
    exact Or.inl he

theorem lookupLI_updateLI_self {m : LiveMap} {v : Nat}
    {ivs old : List Interval} (h : lookupLI m v = some old) :
    lookupLI (updateLI m v ivs) v = some ivs := by
  unfold lookupLI at h
  unfold lookupLI updateLI
  rw [List.find?_map]
  have hcomp : ((fun e : Nat × List Interval => e.1 == v) ∘
      (fun e : Nat × List Interval => if e.1 == v then (e.1, ivs) else e)) =
      (fun e : Nat × List Interval => e.1 == v) := by
    funext e
    by_cases hk : e.1 = v
    · simp [hk]
    · simp [hk]
  rw [hcomp]
  cases hf : m.find? (fun e => e.1 == v) with
  | none => rw [hf] at h; simp at h
  | some e =>
    have hk : e.1 = v := by simpa using List.find?_some hf
    simp [hk]

theorem lookupLI_updateLI_ne {m : LiveMap} {v w : Nat} {ivs : List Interval}
    (hne : w ≠ v) : lookupLI (updateLI m v ivs) w = lookupLI m w := by
  unfold lookupLI updateLI
  rw [List.find?_map]
  have hcomp : ((fun e : Nat × List Interval => e.1 == w) ∘
      (fun e : Nat × List Interval => if e.1 == v then (e.1, ivs) else e)) =
      (fun e : Nat × List Interval => e.1 == w) := by
    funext e
    by_cases hk : e.1 = v
    · simp [hk, Ne.symm hne]
    · simp [hk]
  rw [hcomp]
  cases hf : m.find? (fun e => e.1 == w) with
  | none => simp
  | some e =>
    have hk : e.1 = w := by simpa using List.find?_some hf
    have hkv : ¬ e.1 = v := by
      rw [hk]
      exact hne
    simp [hkv]

theorem lookupLI_append_left {m m2 : LiveMap} {v : Nat} {ivs : List Interval}
    (h : lookupLI m v = some ivs) : lookupLI (m ++ m2) v = some ivs := by
  unfold lookupLI at h ⊢
  rw [List.find?_append]
  cases hf : m.find? (fun e => e.1 == v) with
  | none => rw [hf] at h; simp at h
  | some e => rw [hf] at h; simpa using h

theorem lookupLI_append_right_none {m : LiveMap} {v : Nat}
    {ivs : List Interval} (h : lookupLI m v = none) :
    lookupLI (m ++ [(v, ivs)]) v = some ivs := by
  unfold lookupLI at h ⊢
  rw [List.find?_append]
  cases hf : m.find? (fun e => e.1 == v) with
  | some e => rw [hf] at h; simp at h
  | none => simp

theorem lookupLI_append_singleton_ne {m : LiveMap} {v w : Nat}
    {ivs : List Interval} (hne : w ≠ v) :
    lookupLI (m ++ [(v, ivs)]) w = lookupLI m w := by
  unfold lookupLI
  rw [List.find?_append]
  cases hf : m.find? (fun e => e.1 == w) with
  | some e => simp
  | none => simp [Ne.symm hne]

/-- Well-formedness of an interval map at walk index `idx`: every recorded
interval list is nonempty and each interval `(b, e)` satisfies
`b ≤ e ≤ idx`. -/
def goodLI (m : LiveMap) (idx : Nat) : Prop :=
  ∀ e ∈ m, e.2 ≠ [] ∧ ∀ iv ∈ e.2, iv.1 ≤ iv.2 ∧ iv.2 ≤ idx

theorem goodLI_mono {m : LiveMap} {i j : Nat} (hij : i ≤ j)
    (hg : goodLI m i) : goodLI m j := by
  intro e he
  refine ⟨(hg e he).1, ?_⟩
  intro iv hiv
  obtain ⟨h1, h2⟩ := (hg e he).2 iv hiv
  exact ⟨h1, h2.trans hij⟩

theorem goodLI_updateLI {m : LiveMap} {v : Nat} {ivs : List Interval}
    {idx : Nat} (hg : goodLI m idx) (hne : ivs ≠ [])
    (hivs : ∀ iv ∈ ivs, iv.1 ≤ iv.2 ∧ iv.2 ≤ idx) :
    goodLI (updateLI m v ivs) idx := by
  intro e he
  cases mem_updateLI he with
  | inl hm => exact hg e hm
  | inr heq => rw [heq]; exact ⟨hne, hivs⟩

theorem liveOpStep_good {M : Module} {idx : Nat} {m : LiveMap} {o : Operand}
    (hg : goodLI m idx) : goodLI (liveOpStep M idx m o) idx := by
  cases hloc : locOf M o.1 with
  | none => simpa only [liveOpStep, hloc] using hg
  | some loc =>
    cases hlk : lookupLI m loc with
    | none =>
      simp only [liveOpStep, hloc, hlk]
      intro e he
      cases List.mem_append.mp he with
      | inl hm => exact hg e hm
      | inr hnew =>
        have : e = (loc, [(idx, idx)]) := by simpa using hnew
        rw [this]
        refine ⟨by simp, ?_⟩
        intro iv hiv
        have : iv = (idx, idx) := by simpa using hiv
        rw [this]
        exact ⟨le_refl _, le_refl _⟩
    | some ivs =>
      have hmem : (loc, ivs) ∈ m := lookupLI_some_mem hlk
      have hivs := hg (loc, ivs) hmem
      cases hlast : ivs.getLast? with
      | none =>
        simp only [liveOpStep, hloc, hlk, hlast]
        refine goodLI_updateLI hg (by simp) ?_
        intro iv hiv
        have : iv = (idx, idx) := by simpa using hiv
        rw [this]
        exact ⟨le_refl _, le_refl _⟩
      | some lastIv =>
        simp only [liveOpStep, hloc, hlk, hlast]
        have hlmem : lastIv ∈ ivs := List.mem_of_getLast?_eq_some hlast
        have hlast_good := hivs.2 lastIv hlmem
        have hext : ∀ iv ∈ (if o.2 ≠ OperandKind.Out ∨ lastIv.2 ≠ lastIv.1
            then (lastIv.1, idx) else lastIv) :: ([] : List Interval),
            iv.1 ≤ iv.2 ∧ iv.2 ≤ idx := by
          intro iv hiv
          have hiv' : iv = (if o.2 ≠ OperandKind.Out ∨ lastIv.2 ≠ lastIv.1
              then (lastIv.1, idx) else lastIv) := by simpa using hiv
          rw [hiv']
          split
          · exact ⟨hlast_good.1.trans hlast_good.2, le_refl _⟩
          · exact hlast_good
        have hdrop : ∀ iv ∈ ivs.dropLast, iv.1 ≤ iv.2 ∧ iv.2 ≤ idx := by
          intro iv hiv
          exact hivs.2 iv (List.dropLast_subset ivs hiv)
        split
        · refine goodLI_updateLI hg (by simp) ?_
          intro iv hiv
          rcases List.mem_append.mp hiv with hl | hr
          · exact hdrop iv hl
          · rcases List.mem_cons.mp hr with h1 | h2
            · exact hext _ (by simp [h1])
            · have : iv = (idx, idx) := by simpa using h2
              rw [this]
              exact ⟨le_refl _, le_refl _⟩
        · refine goodLI_updateLI hg (by simp) ?_
          intro iv hiv
          rcases List.mem_append.mp hiv with hl | hr
          · exact hdrop iv hl
          · exact hext _ (by simpa using hr)

theorem liveOpStep_covers {M : Module} {idx : Nat} {m : LiveMap}
    {o : Operand} {v j : Nat} (hg : goodLI m idx)
    (hc : covers ((lookupLI m v).getD []) j) :
    covers ((lookupLI (liveOpStep M idx m o) v).getD []) j := by
  cases hloc : locOf M o.1 with
  | none => simpa only [liveOpStep, hloc] using hc
  | some loc =>
    cases hlk : lookupLI m loc with
    | none =>
      simp only [liveOpStep, hloc, hlk]
      by_cases hv : v = loc
      · subst hv
        rw [hlk] at hc
        rcases hc with ⟨iv, hiv, -⟩
        simp at hiv
      · rw [lookupLI_append_singleton_ne hv]
        exact hc
    | some ivs =>
      cases hlast : ivs.getLast? with
      | none =>
        simp only [liveOpStep, hloc, hlk, hlast]
        by_cases hv : v = loc
        · subst hv
          rw [hlk] at hc
          have hnil : ivs = [] := by
            cases ivs with
            | nil => rfl
            | cons x xs => simp [List.getLast?_concat] at hlast
          rw [hnil] at hc
          rcases hc with ⟨iv, hiv, -⟩
          simp at hiv
        · rw [lookupLI_updateLI_ne hv]
          exact hc
      | some lastIv =>
        simp only [liveOpStep, hloc, hlk, hlast]
        by_cases hv : v = loc
        · subst hv
          rw [lookupLI_updateLI_self hlk]
          rw [hlk] at hc
          simp only [Option.getD_some] at hc ⊢
          obtain ⟨iv, hiv, hb, he⟩ := hc
          have hlg := (hg (v, ivs) (lookupLI_some_mem hlk)).2 lastIv
            (List.mem_of_getLast?_eq_some hlast)
          have hsplit := eq_dropLast_append hlast
          rw [hsplit] at hiv
          rcases List.mem_append.mp hiv with hl | hr
          · split
            · exact ⟨iv, List.mem_append.mpr (Or.inl hl), hb, he⟩
            · exact ⟨iv, List.mem_append.mpr (Or.inl hl), hb, he⟩
          · have hivl : iv = lastIv := by simpa using hr
            subst hivl
            have hext : (if o.2 ≠ OperandKind.Out ∨ iv.2 ≠ iv.1
                then (iv.1, idx) else iv).1 ≤ j ∧
                j ≤ (if o.2 ≠ OperandKind.Out ∨ iv.2 ≠ iv.1
                then (iv.1, idx) else iv).2 := by
              split
              · exact ⟨hb, he.trans hlg.2⟩
              · exact ⟨hb, he⟩
            split
            · exact ⟨_, List.mem_append.mpr (Or.inr (by simp)), hext⟩
            · exact ⟨_, List.mem_append.mpr (Or.inr (by simp)), hext⟩
        · rw [lookupLI_updateLI_ne hv]
          exact hc

theorem liveOpStep_covers_self {M : Module} {idx : Nat} {m : LiveMap}
    {o : Operand} (hg : goodLI m idx)
    (hsome : (locOf M o.1).isSome = true) :
    covers ((lookupLI (liveOpStep M idx m o) o.1).getD []) idx := by
  cases hloc : locOf M o.1 with
  | none => rw [hloc] at hsome; simp at hsome
  | some loc =>
    have hlo := locOf_eq_self hloc
    subst hlo
    cases hlk : lookupLI m o.1 with
    | none =>
      simp only [liveOpStep, hloc, hlk]
      rw [lookupLI_append_right_none hlk]
      exact ⟨(idx, idx), by simp, le_refl _, le_refl _⟩
    | some ivs =>
      cases hlast : ivs.getLast? with
      | none =>
        simp only [liveOpStep, hloc, hlk, hlast]
        rw [lookupLI_updateLI_self hlk]
        exact ⟨(idx, idx), by simp, le_refl _, le_refl _⟩
      | some lastIv =>
        simp only [liveOpStep, hloc, hlk, hlast]
        rw [lookupLI_updateLI_self hlk]
        simp only [Option.getD_some]
        have hlg := (hg (o.1, ivs) (lookupLI_some_mem hlk)).2 lastIv
          (List.mem_of_getLast?_eq_some hlast)
        by_cases ho : o.2 = OperandKind.Out
        · rw [if_pos ho]
          exact ⟨(idx, idx), List.mem_append.mpr (Or.inr (by simp)),
            le_refl _, le_refl _⟩
        · rw [if_neg ho]
          have hcond : o.2 ≠ OperandKind.Out ∨ lastIv.2 ≠ lastIv.1 :=
            Or.inl ho
          rw [if_pos hcond]
          exact ⟨(lastIv.1, idx), List.mem_append.mpr (Or.inr (by simp)),
            hlg.1.trans hlg.2, le_refl _⟩

theorem liveFold_good {M : Module} {idx : Nat} :
    ∀ (l : List Operand) (m : LiveMap), goodLI m idx →
      goodLI (l.foldl (liveOpStep M idx) m) idx := by
  intro l
  induction l with
  | nil => intro m hg; simpa using hg
  | cons o l' ih =>
    intro m hg
    simp only [List.foldl_cons]
    exact ih _ (liveOpStep_good hg)

theorem liveFold_covers {M : Module} {idx : Nat} :
    ∀ (l : List Operand) (m : LiveMap) {v j : Nat}, goodLI m idx →
      covers ((lookupLI m v).getD []) j →
      covers ((lookupLI (l.foldl (liveOpStep M idx) m) v).getD []) j := by
  intro l
  induction l with
  | nil => intro m v j _ hc; simpa using hc
  | cons o l' ih =>
    intro m v j hg hc
    simp only [List.foldl_cons]
    exact ih _ (liveOpStep_good hg) (liveOpStep_covers hg hc)

theorem liveFold_covers_self {M : Module} {idx : Nat} :
    ∀ (l : List Operand) (m : LiveMap), goodLI m idx →
      ∀ o ∈ l, (locOf M o.1).isSome = true →
        covers ((lookupLI (l.foldl (liveOpStep M idx) m) o.1).getD []) idx := by
  intro l
  induction l with
  | nil => intro m _ o ho; simp at ho
  | cons o' l' ih =>
    intro m hg o ho hs
    simp only [List.foldl_cons]
    rcases List.mem_cons.mp ho with rfl | ht
    · exact liveFold_covers l' _ (liveOpStep_good hg)
        (liveOpStep_covers_self hg hs)
    · exact ih _ (liveOpStep_good hg) o ht hs

theorem processInstrLI_covers_self {M : Module} {m : LiveMap} {idx : Nat}
    {I : Instr} (hg : goodLI m idx) :
    ∀ o ∈ I.ops, (locOf M o.1).isSome = true →
      covers ((lookupLI (processInstrLI M m idx I) o.1).getD []) idx :=
  fun o ho hs => liveFold_covers_self (sortOps I.ops) m hg o
    ((List.perm_insertionSort opLE I.ops).mem_iff.mpr ho) hs

theorem liWalk_props {M : Module} :
    ∀ (L : List Instr) (i : Nat) (m : LiveMap), goodLI m i →
      goodLI (liWalk M L i m) (i + L.length) ∧
      (∀ v j, covers ((lookupLI m v).getD []) j →
        covers ((lookupLI (liWalk M L i m) v).getD []) j) ∧
      (∀ k I, L[k]? = some I → ¬ I.kind = IKind.deallocK →
        ∀ o ∈ I.ops, (locOf M o.1).isSome = true →
          covers ((lookupLI (liWalk M L i m) o.1).getD []) (i + k)) := by
  intro L
  induction L with
  | nil =>
    intro i m hg
    refine ⟨by simpa [liWalk] using hg, ?_, ?_⟩
    · intro v j hc
      simpa [liWalk] using hc
    · intro k I hk
      simp at hk
  | cons I0 rest ih =>
    intro i m hg
    have hg1 : goodLI (if I0.kind = IKind.deallocK then m
        else processInstrLI M m i I0) (i + 1) := by
      split
      · exact goodLI_mono (Nat.le_succ i) hg
      · exact goodLI_mono (Nat.le_succ i) (liveFold_good _ _ hg)
    have hwalk : liWalk M (I0 :: rest) i m =
        liWalk M rest (i + 1) (if I0.kind = IKind.deallocK then m
          else processInstrLI M m i I0) := rfl
    obtain ⟨ihg, ihc, ihk⟩ := ih (i + 1) _ hg1
    refine ⟨?_, ?_, ?_⟩
    · rw [hwalk]
      have heq : i + 1 + rest.length = i + (I0 :: rest).length := by
        rw [List.length_cons]
        omega
      rw [← heq]
      exact ihg
    · intro v j hc
      rw [hwalk]
      apply ihc
      split
      · exact hc
      · exact liveFold_covers _ _ hg hc
    · intro k I hk hnd o ho hs
      cases k with
      | zero =>
        have hI : I0 = I := by simpa using hk
        subst hI
        rw [hwalk]
        have hbase : covers ((lookupLI (if I0.kind = IKind.deallocK then m
            else processInstrLI M m i I0) o.1).getD []) i := by
          rw [if_neg hnd]
          exact processInstrLI_covers_self hg o ho hs
        have hres := ihc o.1 i hbase
        simpa using hres
      | succ k' =>
        have hk' : rest[k']? = some I := by simpa using hk
        rw [hwalk]
        have hres := ihk k' I hk' hnd o ho hs
        have heq : i + (k' + 1) = i + 1 + k' := by omega
        rw [heq]
        exact hres

theorem weightExtendLI_covers {M : Module} {m : LiveMap} {total v j : Nat}
    (hg : goodLI m total) (hc : covers ((lookupLI m v).getD []) j) :
    covers ((lookupLI (weightExtendLI M m total) v).getD []) j := by
  unfold weightExtendLI lookupLI
  rw [List.find?_map]
  have hcomp : ((fun e : Nat × List Interval => e.1 == v) ∘
      (fun e : Nat × List Interval =>
        if isWeightId M e.1 then
          match e.2.getLast? with
          | none => e
          | some lastIv => (e.1, e.2.dropLast ++ [(lastIv.1, total)])
        else e)) = (fun e : Nat × List Interval => e.1 == v) := by
    funext e
    by_cases hw : isWeightId M e.1 = true
    · simp only [Function.comp_apply, if_pos hw]
      cases e.2.getLast? <;> rfl
    · simp only [Function.comp_apply, if_neg hw]
  rw [hcomp]
  cases hf : m.find? (fun e => e.1 == v) with
  | none =>
    unfold lookupLI at hc
    rw [hf] at hc
    rcases hc with ⟨iv, hiv, -⟩
    simp at hiv
  | some e =>
    unfold lookupLI at hc
    rw [hf] at hc
    simp only [Option.map_some', Option.getD_some] at hc ⊢
    by_cases hw : isWeightId M e.1 = true
    · simp only [if_pos hw]
      cases hlast : e.2.getLast? with
      | none => simpa using hc
      | some lastIv =>
        simp only
        obtain ⟨iv, hiv, hb, he⟩ := hc
        have hemem : e ∈ m := List.mem_of_find?_eq_some hf
        have hlg := (hg e hemem).2 lastIv (List.mem_of_getLast?_eq_some hlast)
        have hsplit := eq_dropLast_append hlast
        rw [hsplit] at hiv
        rcases List.mem_append.mp hiv with hl | hr
        · exact ⟨iv, List.mem_append.mpr (Or.inl hl), hb, he⟩
        · have hivl : iv = lastIv := by simpa using hr
          subst hivl
          exact ⟨(iv.1, total), List.mem_append.mpr (Or.inr (by simp)),
            hb, he.trans hlg.2⟩
    · simpa [if_neg hw] using hc

/-- C4 (amended): for every module, the recorded intervals of every tracked
location — an `AllocActivation` or a non-`Constant` `WeightVar`, exactly the
locations `calculateLiveIntervals` tracks via `locOf` — cover every
instruction index at which that location appears as an operand of a
non-dealloc instruction. (`Constant` weights are deliberately skipped by the
pass and get no intervals at all, see the counterexample.) -/
theorem calculateLiveIntervals_covers (M : Module) (j : Nat) (I : Instr)
    (hI : M.instrs[j]? = some I) (hnd : ¬ I.kind = IKind.deallocK) :
    ∀ o ∈ I.ops, (locOf M o.1).isSome = true →
      covers ((lookupLI (calculateLiveIntervals M) o.1).getD []) j := by
  intro o ho hs
  have hg0 : goodLI ([] : LiveMap) 0 := by
    intro e he
    simp at he
  obtain ⟨hgood, hcov, hidx⟩ := liWalk_props M.instrs 0 [] hg0
  have h1 := hidx j I hI hnd o ho hs
  have hgood' : goodLI (liWalk M M.instrs 0 []) M.instrs.length := by
    simpa using hgood
  have hres : covers ((lookupLI (weightExtendLI M (liWalk M M.instrs 0 [])
      M.instrs.length) o.1).getD []) j :=
    weightExtendLI_covers hgood' (by simpa using h1)
  simpa [calculateLiveIntervals] using hres

/-- Witness for `calculateLiveIntervals_covers`: in `MC10`, the copy at index
2 reads allocation `0`, and the recorded interval of `0` covers index 2. -/
theorem calculateLiveIntervals_covers_witness :
    MC10.instrs[2]? = some ⟨2, IKind.copyK, 7,
      [(5, OperandKind.Out), (0, OperandKind.In)]⟩ ∧
    covers ((lookupLI (calculateLiveIntervals MC10) 0).getD []) 2 := by
  refine ⟨by decide, ?_⟩
  exact calculateLiveIntervals_covers MC10 2
    ⟨2, IKind.copyK, 7, [(5, OperandKind.Out), (0, OperandKind.In)]⟩
    (by decide) (by decide) (0, OperandKind.In) (by decide) (by decide)

/-! #### C3: copy propagation Case B -/

theorem specMapOutside_id (val with_ : Nat) (I : Interval) :
    ∀ (L : List Instr) (k : Nat), I.2 < k →
      (L.enumFrom k).map (fun p =>
        if I.1 ≤ p.1 ∧ p.1 ≤ I.2 then
          { p.2 with ops := p.2.ops.map (fun o =>
              if o.1 = val ∧ ¬(p.1 = I.1 ∧ o.2 ≠ OperandKind.Out)
              then (with_, o.2) else o) }
        else p.2) = L := by
  intro L
  induction L with
  | nil => intro k _; rfl
  | cons J rest ih =>
    intro k hk
    simp only [List.enumFrom_cons, List.map_cons]
    have hc : ¬(I.1 ≤ k ∧ k ≤ I.2) := by omega
    rw [if_neg hc, ih (k + 1) (by omega)]

theorem replaceAllUsesWith_spec (val with_ : Nat) (I : Interval) :
    ∀ (L : List Instr) (k : Nat),
      replaceAllUsesWith val with_ I L k =
        (L.enumFrom k).map (fun p =>
          if I.1 ≤ p.1 ∧ p.1 ≤ I.2 then
            { p.2 with ops := p.2.ops.map (fun o =>
                if o.1 = val ∧ ¬(p.1 = I.1 ∧ o.2 ≠ OperandKind.Out)
                then (with_, o.2) else o) }
          else p.2) := by
  intro L
  induction L with
  | nil => intro k; rfl
  | cons J rest ih =>
    intro k
    simp only [replaceAllUsesWith, List.enumFrom_cons, List.map_cons]
    by_cases h1 : I.2 < k
    · rw [if_pos h1]
      have hc : ¬(I.1 ≤ k ∧ k ≤ I.2) := by omega
      rw [if_neg hc, specMapOutside_id val with_ I rest (k + 1) (by omega)]
    · by_cases h2 : k < I.1
      · rw [if_neg h1, if_pos h2]
        have hc : ¬(I.1 ≤ k ∧ k ≤ I.2) := by omega
        rw [if_neg hc, ih (k + 1)]
      · rw [if_neg h1, if_neg h2]
        have hc : I.1 ≤ k ∧ k ≤ I.2 := by omega
        rw [if_pos hc, ih (k + 1)]

theorem getEnclosingInterval_ne_nil {l : List Interval} {i : Nat}
    {iv : Interval} (h : getEnclosingInterval l i = some iv) : l ≠ [] := by
  intro he
  rw [he] at h
  simp [getEnclosingInterval] at h

theorem isAllocValue_not_weight {M : Module} {L : List Instr} {v : Nat}
    (hdisj : ∀ w ∈ M.weights, ∀ I ∈ L, I.iid ≠ w.wid)
    (h : isAllocValue L v = true) : isWeightId M v = false := by
  obtain ⟨I, hI, hid⟩ := isAllocValue_exists_mem h
  cases hb : isWeightId M v with
  | false => rfl
  | true =>
    obtain ⟨w, hw, hwv⟩ := isWeightId_exists hb
    exact absurd (hid.trans hwv.symm) (hdisj w hw I hI)

/-- C3: for a `Copy` at index `i` whose `src` and `dest` are both
allocations (hence not weights, by the id-disjointness of weights and
instructions), with enclosing live intervals `SI` and `DI`: propagation
fires if and only if `SI.end ≤ DI.begin` or (`SI.begin < DI.begin` and
`DI.end ≤ SI.end`); when it fires, the stream becomes exactly the
spec-described rewrite — every operand inside the index range of `SI`
referencing `src` rewritten to `dest`, except operands at index `SI.begin`
whose kind is not `Out` — and the scan records the copy for erasure. -/
theorem copyPropagation_caseB (M : Module) (ivm : LiveMap) (L : List Instr)
    (i : Nat) (ci : Instr) (SI DI : Interval)
    (hdisj : ∀ w ∈ M.weights, ∀ I ∈ L, I.iid ≠ w.wid)
    (hsa : isAllocValue L (copySrc ci) = true)
    (hda : isAllocValue L (copyDest ci) = true)
    (hSI : getEnclosingInterval ((lookupLI ivm (copySrc ci)).getD []) i
      = some SI)
    (hDI : getEnclosingInterval ((lookupLI ivm (copyDest ci)).getD []) i
      = some DI) :
    ((cpProcessCopy M ivm L i ci).2 = true ↔
      (SI.2 ≤ DI.1 ∨ (SI.1 < DI.1 ∧ DI.2 ≤ SI.2))) ∧
    ((cpProcessCopy M ivm L i ci).2 = true →
      (cpProcessCopy M ivm L i ci).1
        = specRewriteB L (copySrc ci) (copyDest ci) SI) ∧
    (∀ (n : Nat) (er : List Nat), L[i]? = some ci →
      ci.kind = IKind.copyK → (cpProcessCopy M ivm L i ci).2 = true →
      cpLoop M ivm (n + 1) i L er =
        cpLoop M ivm n (i + 1) (cpProcessCopy M ivm L i ci).1
          (er ++ [ci.iid])) := by
  have hw : isWeightId M (copySrc ci) = false := isAllocValue_not_weight hdisj hsa
  have hne1 : (lookupLI ivm (copySrc ci)).getD [] ≠ [] :=
    getEnclosingInterval_ne_nil hSI
  have hne2 : (lookupLI ivm (copyDest ci)).getD [] ≠ [] :=
    getEnclosingInterval_ne_nil hDI
  have hred : cpProcessCopy M ivm L i ci =
      (if SI.2 ≤ DI.1 ∨ isEnclosedInside SI DI then
        (replaceAllUsesWith (copySrc ci) (copyDest ci) SI L 0, true)
      else (L, false)) := by
    simp only [cpProcessCopy]
    rw [hw]
    simp only [Bool.false_eq_true, if_false]
    rw [if_neg (by push_neg; exact ⟨hne1, hne2⟩), hSI, hDI]
  refine ⟨?_, ?_, ?_⟩
  · rw [hred]
    by_cases hcond : SI.2 ≤ DI.1 ∨ isEnclosedInside SI DI
    · rw [if_pos hcond]
      simpa [isEnclosedInside] using hcond
    · rw [if_neg hcond]
      simp only [Bool.false_eq_true, false_iff]
      simpa [isEnclosedInside] using hcond
  · intro hfire
    rw [hred] at hfire ⊢
    by_cases hcond : SI.2 ≤ DI.1 ∨ isEnclosedInside SI DI
    · rw [if_pos hcond]
      simp only
      rw [replaceAllUsesWith_spec]
      rfl
    · rw [if_neg hcond] at hfire
      simp at hfire
  · intro n er hL hkind hfire
    simp only [cpLoop, hL]
    rw [if_pos hkind]
    simp only [hfire, if_true]

/-- Witness for `copyPropagation_caseB`: in `MC3` the copy `1 ← 0` at index
4 has `SI = (2,4)` and `DI = (4,5)`; `SI.end ≤ DI.begin`, so propagation
fires and the stream is rewritten as described. -/
theorem copyPropagation_caseB_witness :
    (∀ w ∈ MC3.weights, ∀ I ∈ MC3.instrs, I.iid ≠ w.wid) ∧
    ((cpProcessCopy MC3 (calculateLiveIntervals MC3) MC3.instrs 4
        ⟨4, IKind.copyK, 7, [(1, OperandKind.Out), (0, OperandKind.In)]⟩).2
        = true ↔
      ((2, 4).2 ≤ (4, 5).1 ∨ ((2, 4).1 < (4, 5).1 ∧ (4, 5).2 ≤ (2, 4).2))) := by
  constructor
  · decide
  · exact (copyPropagation_caseB MC3 (calculateLiveIntervals MC3) MC3.instrs 4
      ⟨4, IKind.copyK, 7, [(1, OperandKind.Out), (0, OperandKind.In)]⟩
      (2, 4) (4, 5) (by decide) (by decide) (by decide) (by decide)
      (by decide)).1

/-! #### C5: hoist-dealloc -/

/-- The dealloc `d` sits after the instruction with id `u`, with only
`DeallocActivation` instructions in between. -/
def OnlyDeallocsBetween (L : List Instr) (u : Nat) (d : Instr) : Prop :=
  ∃ A B C U, L = A ++ U :: (B ++ d :: C) ∧ U.iid = u ∧
    U.kind ≠ IKind.deallocK ∧ ∀ x ∈ B, x.kind = IKind.deallocK

theorem iid_unique {L : List Instr}
    (hnd : (L.map (fun I => I.iid)).Nodup) {x y : Instr}
    (hx : x ∈ L) (hy : y ∈ L) (he : x.iid = y.iid) : x = y :=
  List.inj_on_of_nodup_map hnd hx hy he

theorem insertAfterId_append (u : Nat) (e : Instr) :
    ∀ (l1 l2 : List Instr),
      insertAfterId (l1 ++ l2) u e =
        if l1.any (fun I => I.iid == u) then insertAfterId l1 u e ++ l2
        else l1 ++ insertAfterId l2 u e := by
  intro l1
  induction l1 with
  | nil => intro l2; simp
  | cons x rest ih =>
    intro l2
    rw [List.cons_append]
    by_cases hx : x.iid = u
    · simp [insertAfterId, hx]
    · have hb : (x.iid == u) = false := by simpa using hx
      simp only [insertAfterId, if_neg hx, List.any_cons, hb, Bool.false_or]
      rw [ih l2]
      split
      · rfl
      · rfl

theorem insertAfterId_cons_match {x : Instr} {u : Nat} (e : Instr)
    (R : List Instr) (hx : x.iid = u) :
    insertAfterId (x :: R) u e = x :: e :: R := by
  simp [insertAfterId, hx]

theorem nextAfterId_some {u w : Nat} :
    ∀ {L : List Instr}, nextAfterId L u = some w →
      ∃ P X Y Q, L = P ++ X :: Y :: Q ∧ X.iid = u ∧ Y.iid = w := by
  intro L
  induction L with
  | nil => intro h; simp [nextAfterId] at h
  | cons x rest ih =>
    intro h
    cases rest with
    | nil => simp [nextAfterId] at h
    | cons y rest' =>
      by_cases hx : x.iid = u
      · rw [nextAfterId, if_pos hx] at h
        exact ⟨[], x, y, rest', by simp, hx, by simpa using Option.some.inj h⟩
      · rw [nextAfterId, if_neg hx] at h
        obtain ⟨P, X, Y, Q, hL, hX, hY⟩ := ih h
        exact ⟨x :: P, X, Y, Q, by rw [List.cons_append, ← hL], hX, hY⟩

theorem eraseP_of_decomp {A C : List Instr} {d : Instr}
    (hA : ∀ x ∈ A, x.iid ≠ d.iid) :
    (A ++ d :: C).eraseP (fun I => I.iid == d.iid) = A ++ C := by
  rw [List.eraseP_append_right]
  · simp
  · intro b hb
    simpa using hA b hb

theorem mem_decomp_unique {L : List Instr}
    (hnd : (L.map (fun I => I.iid)).Nodup) {d : Instr} (hd : d ∈ L) :
    ∃ A C, L = A ++ d :: C ∧ (∀ x ∈ A, x.iid ≠ d.iid) ∧
      (∀ x ∈ C, x.iid ≠ d.iid) := by
  obtain ⟨A, C, hL⟩ := List.append_of_mem hd
  refine ⟨A, C, hL, ?_, ?_⟩
  · intro x hx hcontra
    have hx' : x ∈ L := by rw [hL]; exact List.mem_append.mpr (Or.inl hx)
    have := iid_unique hnd hx' hd hcontra
    subst this
    rw [hL] at hnd
    simp only [List.map_append, List.map_cons] at hnd
    have := (List.nodup_append.mp hnd).2.2
    exact this (List.mem_map.mpr ⟨x, hx, rfl⟩) (by simp)
  · intro x hx hcontra
    have hx' : x ∈ L := by
      rw [hL]
      exact List.mem_append.mpr (Or.inr (List.mem_cons_of_mem _ hx))
    have := iid_unique hnd hx' hd hcontra
    subst this
    rw [hL] at hnd
    simp only [List.map_append, List.map_cons] at hnd
    have := ((List.nodup_append.mp hnd).2.1 : (x.iid :: C.map _).Nodup)
    rw [List.nodup_cons] at this
    exact this.1 (List.mem_map.mpr ⟨x, hx, rfl⟩)

theorem insertAfterId_of_decomp {P Q : List Instr} {U : Instr} {u : Nat}
    (e : Instr) (hU : U.iid = u) (hP : ∀ x ∈ P, x.iid ≠ u) :
    insertAfterId (P ++ U :: Q) u e = P ++ U :: e :: Q := by
  rw [insertAfterId_append]
  have hany : (P.any (fun I => I.iid == u)) = false := by
    rw [List.any_eq_false]
    intro x hx
    simpa using hP x hx
  rw [hany]
  simp only [Bool.false_eq_true, if_false]
  rw [insertAfterId_cons_match e Q hU]

theorem lookupAssoc_setAssoc (m : List (Nat × Nat)) (k v a : Nat) :
    lookupAssoc (setAssoc m k v) a =
      if a = k then some v else lookupAssoc m a := by
  unfold setAssoc lookupAssoc
  by_cases hf : (m.find? (fun e => e.1 == k)).isSome = true
  · rw [if_pos hf, List.find?_map]
    have hcomp : ((fun e : Nat × Nat => e.1 == a) ∘
        (fun e : Nat × Nat => if e.1 == k then (k, v) else e)) =
        (fun e : Nat × Nat => e.1 == a) := by
      funext e
      by_cases hk : e.1 = k
      · simp [hk]
      · simp [hk]
    rw [hcomp]
    by_cases hak : a = k
    · subst hak
      cases hfind : m.find? (fun e => e.1 == a) with
      | none => rw [hfind] at hf; simp at hf
      | some e =>
        have hk : e.1 = a := by simpa using List.find?_some hfind
        simp [hk]
    · rw [if_neg hak]
      cases hfind : m.find? (fun e => e.1 == a) with
      | none => simp
      | some e =>
        have hk : e.1 = a := by simpa using List.find?_some hfind
        have : ¬ e.1 = k := by rw [hk]; exact hak
        simp [this]
  · rw [if_neg hf]
    rw [List.find?_append]
    by_cases hak : a = k
    · subst hak
      cases hfind : m.find? (fun e => e.1 == a) with
      | some e => rw [hfind] at hf; simp at hf
      | none => simp
    · rw [if_neg hak]
      cases hfind : m.find? (fun e => e.1 == a) with
      | some e => simp
      | none => simp [Ne.symm hak]

theorem lookupAssoc_setAssoc_cases {m : List (Nat × Nat)} {k v a u : Nat}
    (h : lookupAssoc (setAssoc m k v) a = some u) :
    u = v ∨ lookupAssoc m a = some u := by
  rw [lookupAssoc_setAssoc] at h
  by_cases hak : a = k
  · rw [if_pos hak] at h
    exact Or.inl (Option.some.inj h).symm
  · rw [if_neg hak] at h
    exact Or.inr h

/-- Every value recorded in `lastUserMap` is the id of a non-dealloc
instruction of the stream. -/
theorem lastUserMap_values (L : List Instr) :
    ∀ a u, lookupAssoc (lastUserMap L) a = some u →
      ∃ I ∈ L, I.iid = u ∧ I.kind ≠ IKind.deallocK := by
  have hops : ∀ (I : Instr), I ∈ L → ¬ I.kind = IKind.deallocK →
      ∀ (ops : List Operand) (acc : List (Nat × Nat)),
      (∀ a u, lookupAssoc acc a = some u →
        ∃ J ∈ L, J.iid = u ∧ J.kind ≠ IKind.deallocK) →
      ∀ a u, lookupAssoc (ops.foldl (fun acc2 o =>
          match getAllocationOrigin L o.1 with
          | none => acc2
          | some a => setAssoc acc2 a I.iid) acc) a = some u →
        ∃ J ∈ L, J.iid = u ∧ J.kind ≠ IKind.deallocK := by
    intro I hI hIk ops
    induction ops with
    | nil => intro acc hacc a u h; exact hacc a u h
    | cons o rest ih =>
      intro acc hacc a u h
      simp only [List.foldl_cons] at h
      refine ih _ ?_ a u h
      intro a' u' h'
      cases hga : getAllocationOrigin L o.1 with
      | none =>
        rw [hga] at h'
        exact hacc a' u' h'
      | some b =>
        rw [hga] at h'
        cases lookupAssoc_setAssoc_cases h' with
        | inl he => exact ⟨I, hI, he.symm, hIk⟩
        | inr hm => exact hacc a' u' hm
  have hmain : ∀ (l' : List Instr), (∀ I ∈ l', I ∈ L) →
      ∀ (acc : List (Nat × Nat)),
      (∀ a u, lookupAssoc acc a = some u →
        ∃ J ∈ L, J.iid = u ∧ J.kind ≠ IKind.deallocK) →
      ∀ a u, lookupAssoc (l'.foldl (fun acc I =>
          if I.kind = IKind.deallocK then acc
          else if I.kind = IKind.allocK then setAssoc acc I.iid I.iid
          else I.ops.foldl (fun acc2 o =>
            match getAllocationOrigin L o.1 with
            | none => acc2
            | some a => setAssoc acc2 a I.iid) acc) acc) a = some u →
        ∃ J ∈ L, J.iid = u ∧ J.kind ≠ IKind.deallocK := by
    intro l'
    induction l' with
    | nil => intro _ acc hacc a u h; exact hacc a u h
    | cons I rest ih =>
      intro hsub acc hacc a u h
      simp only [List.foldl_cons] at h
      refine ih (fun J hJ => hsub J (List.mem_cons_of_mem _ hJ)) _ ?_ a u h
      intro a' u' h'
      by_cases h1 : I.kind = IKind.deallocK
      · rw [if_pos h1] at h'
        exact hacc a' u' h'
      · rw [if_neg h1] at h'
        by_cases h2 : I.kind = IKind.allocK
        · rw [if_pos h2] at h'
          cases lookupAssoc_setAssoc_cases h' with
          | inl he =>
            exact ⟨I, hsub I (List.mem_cons_self _ _), he.symm, h1⟩
          | inr hm => exact hacc a' u' hm
        · rw [if_neg h2] at h'
          exact hops I (hsub I (List.mem_cons_self _ _)) h1 I.ops acc hacc a' u' h'
  intro a u h
  exact hmain L (fun _ hI => hI) [] (by intro a' u' h'; simp [lookupAssoc] at h') a u h

theorem ODB_eraseP {L : List Instr} {u : Nat} {d0 : Instr} {e : Nat}
    (h : OnlyDeallocsBetween L u d0) (hu : u ≠ e) (hd : d0.iid ≠ e) :
    OnlyDeallocsBetween (L.eraseP (fun I => I.iid == e)) u d0 := by
  obtain ⟨A, B, C, U, hL, hUid, hUk, hB⟩ := h
  subst hL
  rw [List.eraseP_append]
  have hpU : ((fun I : Instr => I.iid == e) U) = false := by
    show (U.iid == e) = false
    rw [hUid]
    simpa using hu
  split
  · exact ⟨A.eraseP _, B, C, U, rfl, hUid, hUk, hB⟩
  · rw [List.eraseP_cons_of_neg (by simp [hpU])]
    rw [List.eraseP_append]
    split
    · refine ⟨A, B.eraseP _, C, U, rfl, hUid, hUk, ?_⟩
      intro x hx
      exact hB x (List.eraseP_subset _ hx)
    · rw [List.eraseP_cons_of_neg (by simpa using hd)]
      exact ⟨A, B, C.eraseP _, U, rfl, hUid, hUk, hB⟩

theorem ODB_insertAfterId {L : List Instr} {u : Nat} {d0 : Instr}
    {u' : Nat} {e : Instr}
    (h : OnlyDeallocsBetween L u d0) (hd0k : d0.kind = IKind.deallocK)
    (he : e.kind = IKind.deallocK)
    (hX : ∀ x ∈ L, x.iid = u' → x.kind ≠ IKind.deallocK) :
    OnlyDeallocsBetween (insertAfterId L u' e) u d0 := by
  obtain ⟨A, B, C, U, hL, hUid, hUk, hB⟩ := h
  subst hL
  rw [insertAfterId_append]
  split
  · exact ⟨insertAfterId A u' e, B, C, U, rfl, hUid, hUk, hB⟩
  · by_cases hU' : U.iid = u'
    · rw [insertAfterId_cons_match e _ hU']
      refine ⟨A, e :: B, C, U, by simp, hUid, hUk, ?_⟩
      intro x hx
      rcases List.mem_cons.mp hx with rfl | hxB
      · exact he
      · exact hB x hxB
    · simp only [insertAfterId, if_neg hU']
      rw [insertAfterId_append]
      split
      · rename_i hBany
        obtain ⟨x, hxB, hxid⟩ := List.any_eq_true.mp hBany
        have hxL : x ∈ A ++ U :: (B ++ d0 :: C) := by
          refine List.mem_append.mpr (Or.inr ?_)
          refine List.mem_cons_of_mem _ (List.mem_append.mpr (Or.inl hxB))
        exact absurd (hB x hxB) (hX x hxL (by simpa using hxid))
      · by_cases hd0' : d0.iid = u'
        · have hd0L : d0 ∈ A ++ U :: (B ++ d0 :: C) := by
            refine List.mem_append.mpr (Or.inr ?_)
            refine List.mem_cons_of_mem _ (List.mem_append.mpr (Or.inr ?_))
            exact List.mem_cons_self _ _
          exact absurd hd0k (hX d0 hd0L hd0')
        · simp only [insertAfterId, if_neg hd0']
          exact ⟨A, B, insertAfterId C u' e, U, rfl, hUid, hUk, hB⟩

theorem hdStep_ODB {L0 L : List Instr} {d : Instr} {u : Nat}
    (hnd : (L.map (fun I => I.iid)).Nodup)
    (hdL : d ∈ L) (hdk : d.kind = IKind.deallocK)
    (hlk : lookupAssoc (lastUserMap L0) (deallocAllocOf L0 d) = some u)
    (hUL : ∃ U ∈ L, U.iid = u ∧ U.kind ≠ IKind.deallocK) :
    OnlyDeallocsBetween (hdStep L0 (lastUserMap L0) L d) u d ∧
    List.Perm (hdStep L0 (lastUserMap L0) L d) L := by
  obtain ⟨U, hU, hUid, hUk⟩ := hUL
  simp only [hdStep, hlk]
  by_cases hnext : nextAfterId L u = some d.iid
  · rw [if_pos hnext]
    refine ⟨?_, List.Perm.refl _⟩
    obtain ⟨P, X, Y, Q, hL, hXid, hYid⟩ := nextAfterId_some hnext
    have hYL : Y ∈ L := by rw [hL]; simp
    have hYd : Y = d := iid_unique hnd hYL hdL hYid
    subst hYd
    have hXL : X ∈ L := by rw [hL]; simp
    have hXU : X = U := iid_unique hnd hXL hU (hXid.trans hUid.symm)
    subst hXU
    exact ⟨P, [], Q, X, by simpa using hL, hUid, hUk, by simp⟩
  · rw [if_neg hnext]
    obtain ⟨A, C, hLdec, hA, -⟩ := mem_decomp_unique hnd hdL
    have herase : L.eraseP (fun I => I.iid == d.iid) = A ++ C := by
      rw [hLdec]
      exact eraseP_of_decomp hA
    have hUd : U ≠ d := by
      intro hh
      exact hUk (hh ▸ hdk)
    have hUAC : U ∈ A ++ C := by
      have hmem := hU
      rw [hLdec] at hmem
      rcases List.mem_append.mp hmem with h1 | h2
      · exact List.mem_append.mpr (Or.inl h1)
      · rcases List.mem_cons.mp h2 with h3 | h4
        · exact absurd h3 hUd
        · exact List.mem_append.mpr (Or.inr h4)
    have hndAC : ((A ++ C).map (fun I => I.iid)).Nodup := by
      have hsub : List.Sublist (A ++ C) (A ++ d :: C) :=
        List.Sublist.append_left (List.sublist_cons_self d C) A
      have := hnd
      rw [hLdec] at this
      exact List.Nodup.sublist (hsub.map _) this
    obtain ⟨P, Q, hPQ, hP, -⟩ := mem_decomp_unique hndAC hUAC
    have hins : insertAfterId (A ++ C) u d = P ++ U :: d :: Q := by
      rw [hPQ]
      refine insertAfterId_of_decomp d hUid ?_
      intro x hx
      rw [← hUid]
      exact hP x hx
    rw [herase, hins]
    constructor
    · exact ⟨P, [], Q, U, by simp, hUid, hUk, by simp⟩
    · have h1 : P ++ U :: d :: Q = (P ++ [U]) ++ d :: Q := by simp
      have h2 : List.Perm ((P ++ [U]) ++ d :: Q) (d :: ((P ++ [U]) ++ Q)) :=
        List.perm_middle
      have h3 : (P ++ [U]) ++ Q = A ++ C := by
        rw [hPQ]
        simp
      have h4 : List.Perm (d :: (A ++ C)) (A ++ d :: C) :=
        List.perm_middle.symm
      rw [h1, hLdec]
      rw [h3] at h2
      exact h2.trans h4

theorem hdStep_preserves {L0 L : List Instr} {d d0 : Instr} {u0 : Nat}
    (hnd : (L.map (fun I => I.iid)).Nodup)
    (hd0k : d0.kind = IKind.deallocK) (hdk : d.kind = IKind.deallocK)
    (hdd0 : d0.iid ≠ d.iid) (hdL : d ∈ L)
    (hUL : ∀ u, lookupAssoc (lastUserMap L0) (deallocAllocOf L0 d) = some u →
      ∃ U ∈ L, U.iid = u ∧ U.kind ≠ IKind.deallocK)
    (h : OnlyDeallocsBetween L u0 d0) :
    OnlyDeallocsBetween (hdStep L0 (lastUserMap L0) L d) u0 d0 := by
  cases hlk : lookupAssoc (lastUserMap L0) (deallocAllocOf L0 d) with
  | none =>
    simp only [hdStep, hlk]
    exact h
  | some u =>
    simp only [hdStep, hlk]
    by_cases hnext : nextAfterId L u = some d.iid
    · rw [if_pos hnext]
      exact h
    · rw [if_neg hnext]
      have hu0d : u0 ≠ d.iid := by
        intro he
        obtain ⟨A, B, C, U0, hL, hU0id, hU0k, -⟩ := h
        have hU0L : U0 ∈ L := by rw [hL]; simp
        have : U0 = d := iid_unique hnd hU0L hdL (by rw [hU0id, he])
        exact hU0k (this ▸ hdk)
      have h1 := ODB_eraseP h hu0d hdd0
      refine ODB_insertAfterId h1 hd0k hdk ?_
      intro x hx hxid
      have hxL : x ∈ L := List.eraseP_subset _ hx
      obtain ⟨U, hU, hUid, hUk⟩ := hUL u hlk
      have : x = U := iid_unique hnd hxL hU (hxid.trans hUid.symm)
      rw [this]
      exact hUk

theorem hdFold_main (L0 : List Instr)
    (hnd0 : (L0.map (fun I => I.iid)).Nodup) :
    ∀ (ds : List Instr) (L : List Instr),
      List.Perm L L0 →
      (∀ d' ∈ ds, d' ∈ L0 ∧ d'.kind = IKind.deallocK) →
      ((ds.map (fun I => I.iid)).Nodup) →
      (List.Perm (ds.foldl (hdStep L0 (lastUserMap L0)) L) L0) ∧
      (∀ d0 u0, d0.kind = IKind.deallocK →
        d0.iid ∉ ds.map (fun I => I.iid) →
        OnlyDeallocsBetween L u0 d0 →
        OnlyDeallocsBetween (ds.foldl (hdStep L0 (lastUserMap L0)) L) u0 d0) ∧
      (∀ d ∈ ds, ∀ u,
        lookupAssoc (lastUserMap L0) (deallocAllocOf L0 d) = some u →
        OnlyDeallocsBetween (ds.foldl (hdStep L0 (lastUserMap L0)) L) u d) := by
  intro ds
  induction ds with
  | nil =>
    intro L hperm _ _
    refine ⟨by simpa using hperm, ?_, ?_⟩
    · intro d0 u0 _ _ h
      simpa using h
    · intro d hd
      simp at hd
  | cons d rest ih =>
    intro L hperm hds hndds
    have hndL : (L.map (fun I => I.iid)).Nodup :=
      ((hperm.map _).nodup_iff).mpr hnd0
    have hdL : d ∈ L :=
      (hperm.mem_iff).mpr (hds d (List.mem_cons_self _ _)).1
    have hdk : d.kind = IKind.deallocK := (hds d (List.mem_cons_self _ _)).2
    have hUL : ∀ u,
        lookupAssoc (lastUserMap L0) (deallocAllocOf L0 d) = some u →
        ∃ U ∈ L, U.iid = u ∧ U.kind ≠ IKind.deallocK := by
      intro u hu
      obtain ⟨I, hI, hIid, hIk⟩ := lastUserMap_values L0 _ u hu
      exact ⟨I, (hperm.mem_iff).mpr hI, hIid, hIk⟩
    have hstep_perm : List.Perm (hdStep L0 (lastUserMap L0) L d) L := by
      cases hlk : lookupAssoc (lastUserMap L0) (deallocAllocOf L0 d) with
      | none =>
        simp only [hdStep, hlk]
        exact List.Perm.refl _
      | some u =>
        exact (hdStep_ODB hndL hdL hdk hlk (hUL u hlk)).2
    have hperm1 : List.Perm (hdStep L0 (lastUserMap L0) L d) L0 :=
      hstep_perm.trans hperm
    have hrest : ∀ d' ∈ rest, d' ∈ L0 ∧ d'.kind = IKind.deallocK :=
      fun d' hd' => hds d' (List.mem_cons_of_mem _ hd')
    have hndrest : ((rest.map (fun I => I.iid)).Nodup) := by
      rw [List.map_cons] at hndds
      exact (List.nodup_cons.mp hndds).2
    have hdnotin : d.iid ∉ rest.map (fun I => I.iid) := by
      rw [List.map_cons] at hndds
      exact (List.nodup_cons.mp hndds).1
    obtain ⟨permF, presF, estF⟩ :=
      ih (hdStep L0 (lastUserMap L0) L d) hperm1 hrest hndrest
    have hfold : (d :: rest).foldl (hdStep L0 (lastUserMap L0)) L =
        rest.foldl (hdStep L0 (lastUserMap L0))
          (hdStep L0 (lastUserMap L0) L d) := by
      simp [List.foldl_cons]
    refine ⟨by rw [hfold]; exact permF, ?_, ?_⟩
    · intro d0 u0 hd0k hd0notin hODB0
      rw [hfold]
      have hd0ne : d0.iid ≠ d.iid := by
        intro he
        apply hd0notin
        rw [List.map_cons]
        exact List.mem_cons.mpr (Or.inl he)
      have hd0rest : d0.iid ∉ rest.map (fun I => I.iid) := by
        intro he
        apply hd0notin
        rw [List.map_cons]
        exact List.mem_cons_of_mem _ he
      exact presF d0 u0 hd0k hd0rest
        (hdStep_preserves hndL hd0k hdk hd0ne hdL hUL hODB0)
    · intro d' hd' u hu
      rw [hfold]
      rcases List.mem_cons.mp hd' with rfl | hd'rest
      · have hODBd : OnlyDeallocsBetween
            (hdStep L0 (lastUserMap L0) L d') u d' :=
          (hdStep_ODB hndL hdL hdk hu (hUL u hu)).1
        exact presF d' u hdk hdnotin hODBd
      · exact estF d' hd'rest u hu

/-- C5 (amended): after `hoistDealloc`, every `DeallocActivation` whose
allocation has a recorded last non-dealloc user `u` is positioned after `u`
with only `DeallocActivation` instructions between `u` and it. (It is not
always *immediately* after `u`: when several allocations share the same last
use, their deallocs are stacked behind it, each newly moved dealloc landing
directly behind the last use and pushing the previously placed ones one slot
further — see the counterexample. A dealloc already immediately after the
last use when it is processed is itself not moved.) -/
theorem hoistDealloc_only_deallocs_between (M : Module)
    (hnd : (M.instrs.map (fun I => I.iid)).Nodup) :
    ∀ d ∈ M.instrs, d.kind = IKind.deallocK →
      ∀ u, lookupAssoc (lastUserMap M.instrs)
          (deallocAllocOf M.instrs d) = some u →
        OnlyDeallocsBetween (hoistDealloc M).instrs u d := by
  intro d hd hdk u hu
  have hds : ∀ d' ∈ M.instrs.filter (fun I => I.kind == IKind.deallocK),
      d' ∈ M.instrs ∧ d'.kind = IKind.deallocK := by
    intro d' hd'
    have h1 := List.mem_of_mem_filter hd'
    have h2 := List.of_mem_filter hd'
    exact ⟨h1, by simpa using h2⟩
  have hndds : (((M.instrs.filter (fun I => I.kind == IKind.deallocK)).map
      (fun I => I.iid)).Nodup) :=
    List.Nodup.sublist ((List.filter_sublist _).map _) hnd
  have hmain := hdFold_main M.instrs hnd
    (M.instrs.filter (fun I => I.kind == IKind.deallocK)) M.instrs
    (List.Perm.refl _) hds hndds
  exact hmain.2.2 d (List.mem_filter.mpr ⟨hd, by simp [hdk]⟩) u hu

/-- Witness for `hoistDealloc_only_deallocs_between`: in `MC5`, dealloc `3`
(of allocation `0`, last used by instruction `2`) ends up after instruction
`2` with only the dealloc `4` in between. -/
theorem hoistDealloc_only_deallocs_between_witness :
    ((MC5.instrs.map (fun I => I.iid)).Nodup) ∧
    OnlyDeallocsBetween (hoistDealloc MC5).instrs 2
      ⟨3, IKind.deallocK, 7, [(0, OperandKind.Out)]⟩ := by
  refine ⟨by decide, ?_⟩
  exact hoistDealloc_only_deallocs_between MC5 (by decide)
    ⟨3, IKind.deallocK, 7, [(0, OperandKind.Out)]⟩ (by decide) (by decide)
    2 (by decide)

/-- C5 (counterexample): in `MC5` hoisting leaves dealloc `3` two positions
after the last use of its allocation, not immediately after it. -/
theorem claimC5_false : ¬ claimC5 MC5 := by
  unfold claimC5
  decide

/-! #### C6: dead-allocation sweep -/

theorem eraseInstructions_skip {x : Instr} :
    ∀ (ids : List Nat) (T : List Instr), (∀ id ∈ ids, x.iid ≠ id) →
      eraseInstructions (x :: T) ids = x :: eraseInstructions T ids := by
  intro ids
  induction ids with
  | nil => intro T _; rfl
  | cons id ids' ih =>
    intro T h
    unfold eraseInstructions
    simp only [List.foldl_cons]
    have hx : ((fun I : Instr => I.iid == id) x) = false := by
      simpa using h id (List.mem_cons_self _ _)
    rw [List.eraseP_cons_of_neg (by simp [hx])]
    exact ih (T.eraseP (fun I => I.iid == id))
      (fun i hi => h i (List.mem_cons_of_mem _ hi))

theorem eraseInstructions_eq_filter (p : Instr → Bool) :
    ∀ (L : List Instr), ((L.map (fun I => I.iid)).Nodup) →
      eraseInstructions L ((L.filter p).map (fun I => I.iid)) =
        L.filter (fun I => !(p I)) := by
  intro L
  induction L with
  | nil => intro _; rfl
  | cons x rest ih =>
    intro hnd
    rw [List.map_cons] at hnd
    obtain ⟨hx_notin, hnd'⟩ := List.nodup_cons.mp hnd
    by_cases hx : p x = true
    · rw [List.filter_cons_of_pos hx, List.map_cons]
      unfold eraseInstructions
      simp only [List.foldl_cons]
      rw [List.eraseP_cons_of_pos (by simp)]
      have := ih hnd'
      unfold eraseInstructions at this
      rw [this]
      rw [List.filter_cons_of_neg (by simp [hx])]
    · rw [List.filter_cons_of_neg (by simpa using hx)]
      rw [eraseInstructions_skip _ rest ?hids]
      case hids =>
        intro id hid
        obtain ⟨I, hI, hIid⟩ := List.mem_map.mp hid
        intro hcontra
        apply hx_notin
        rw [hcontra, ← hIid]
        exact List.mem_map.mpr ⟨I, List.mem_of_mem_filter hI, rfl⟩
      rw [ih hnd']
      rw [List.filter_cons_of_pos (by simpa using hx)]

theorem nodup_filter_iids {L : List Instr} (p : Instr → Bool)
    (hnd : (L.map (fun I => I.iid)).Nodup) :
    ((L.filter p).map (fun I => I.iid)).Nodup :=
  List.Nodup.sublist ((List.filter_sublist _).map _) hnd

/-- C6: `deleteDeadAllocs` performs exactly the three erasure passes of the
spec, in order — unused `TensorView`s, then `DeallocActivation`s whose
alloc has fewer than two users, then `AllocActivation`s with fewer than two
users, each condition evaluated on the stream left by the previous pass —
and no other instruction is erased: every erased instruction satisfies one
of the three conditions. The hypothesis is that instruction ids are
distinct. -/
theorem deleteDeadAllocs_three_passes (M : Module)
    (hnd : (M.instrs.map (fun I => I.iid)).Nodup) :
    (deleteDeadAllocs M).instrs = ddaSpec M.instrs ∧
    ∀ I ∈ M.instrs, I ∉ (deleteDeadAllocs M).instrs →
      (I.kind = IKind.tensorViewK ∧ numUsers M.instrs I.iid = 0) ∨
      (I.kind = IKind.deallocK ∧
        numUsers (ddaSpec1 M.instrs) (deallocAllocOf (ddaSpec1 M.instrs) I) < 2) ∨
      (I.kind = IKind.allocK ∧
        numUsers (ddaSpec2 M.instrs) I.iid < 2) := by
  have h1 : eraseInstructions M.instrs
      ((M.instrs.filter (fun I =>
        I.kind == IKind.tensorViewK && numUsers M.instrs I.iid == 0)).map
        (fun I => I.iid)) = ddaSpec1 M.instrs :=
    eraseInstructions_eq_filter _ M.instrs hnd
  have hnd1 : ((ddaSpec1 M.instrs).map (fun I => I.iid)).Nodup :=
    List.Nodup.sublist ((List.filter_sublist _).map _) hnd
  have h2 : eraseInstructions (ddaSpec1 M.instrs)
      (((ddaSpec1 M.instrs).filter (fun I =>
        I.kind == IKind.deallocK &&
          decide (numUsers (ddaSpec1 M.instrs)
            (deallocAllocOf (ddaSpec1 M.instrs) I) < 2))).map
        (fun I => I.iid)) = ddaSpec2 M.instrs :=
    eraseInstructions_eq_filter _ _ hnd1
  have hnd2 : ((ddaSpec2 M.instrs).map (fun I => I.iid)).Nodup :=
    List.Nodup.sublist ((List.filter_sublist _).map _) hnd1
  have h3 : eraseInstructions (ddaSpec2 M.instrs)
      (((ddaSpec2 M.instrs).filter (fun I =>
        I.kind == IKind.allocK &&
          decide (numUsers (ddaSpec2 M.instrs) I.iid < 2))).map
        (fun I => I.iid)) = ddaSpec M.instrs :=
    eraseInstructions_eq_filter _ _ hnd2
  have heq : (deleteDeadAllocs M).instrs = ddaSpec M.instrs := by
    simp only [deleteDeadAllocs]
    rw [h1, h2, h3]
  refine ⟨heq, ?_⟩
  intro I hI hnotin
  rw [heq] at hnotin
  by_cases hs1 : I ∈ ddaSpec1 M.instrs
  · by_cases hs2 : I ∈ ddaSpec2 M.instrs
    · right; right
      have := (mt (fun hcond =>
        List.mem_filter.mpr ⟨hs2, hcond⟩)) hnotin
      have hcond : ¬ ((!(I.kind == IKind.allocK &&
          decide (numUsers (ddaSpec2 M.instrs) I.iid < 2))) = true) := this
      simp only [Bool.not_eq_true', Bool.not_eq_false] at hcond
      simpa using hcond
    · right; left
      have := (mt (fun hcond =>
        List.mem_filter.mpr ⟨hs1, hcond⟩)) hs2
      have hcond : ¬ ((!(I.kind == IKind.deallocK &&
          decide (numUsers (ddaSpec1 M.instrs)
            (deallocAllocOf (ddaSpec1 M.instrs) I) < 2))) = true) := this
      simp only [Bool.not_eq_true', Bool.not_eq_false] at hcond
      simpa using hcond
  · left
    have := (mt (fun hcond => List.mem_filter.mpr ⟨hI, hcond⟩)) hs1
    have hcond : ¬ ((!(I.kind == IKind.tensorViewK &&
        numUsers M.instrs I.iid == 0)) = true) := this
    simp only [Bool.not_eq_true', Bool.not_eq_false] at hcond
    simpa using hcond

/-- Witness for `deleteDeadAllocs_three_passes` on `MC6`: a dangling
`TensorView`, a dealloc whose alloc is otherwise unused, and the alloc
itself all get erased; the splat writing the weight stays. -/
theorem deleteDeadAllocs_three_passes_witness :
    ((MC6.instrs.map (fun I => I.iid)).Nodup) ∧
    ((deleteDeadAllocs MC6).instrs = ddaSpec MC6.instrs ∧
    ∀ I ∈ MC6.instrs, I ∉ (deleteDeadAllocs MC6).instrs →
      (I.kind = IKind.tensorViewK ∧ numUsers MC6.instrs I.iid = 0) ∨
      (I.kind = IKind.deallocK ∧
        numUsers (ddaSpec1 MC6.instrs) (deallocAllocOf (ddaSpec1 MC6.instrs) I) < 2) ∨
      (I.kind = IKind.allocK ∧
        numUsers (ddaSpec2 MC6.instrs) I.iid < 2)) :=
  ⟨by decide, deleteDeadAllocs_three_passes MC6 (by decide)⟩

/-! #### C7 and C9: driver behaviour -/

/-- C7 (code bug): on a module with an empty instruction stream and at
least one weight, `eliminateDeadStores` dereferences
`*std::prev(instrs.end())` on an empty list while seeding the synthetic
last reads — undefined behaviour, modelled as `none` — so `optimize` is not
well-defined there, contrary to the claim; with no weights the empty stream
is indeed a no-op of the whole pipeline. -/
theorem eliminateDeadStores_empty_stream_with_weight :
    eliminateDeadStores MC7 = none ∧
    optimize CompilationMode.Infer true false MC7 = none ∧
    (∀ mode dbg,
      optimize mode true dbg (⟨[], [], 0⟩ : Module) = some ⟨[], [], 0⟩) := by
  refine ⟨by decide, by decide, ?_⟩
  intro mode dbg
  cases mode <;> cases dbg <;> decide

/-- C8 (code bug): `optimize` is not idempotent. On `MC8` the first run
succeeds and leaves the two deallocs stacked behind their shared last use in
the order `6, 5`; the second run's `hoistDealloc` finds dealloc `5` not
immediately after the last use and re-inserts it directly behind it,
displacing dealloc `6` — producing the order `5, 6`, a different instruction
sequence (not merely different names). Every further run swaps them back and
forth. -/
theorem optimize_not_idempotent :
    optimize CompilationMode.Infer true false MC8 ≠ none ∧
    (optimize CompilationMode.Infer true false MC8).bind
      (optimize CompilationMode.Infer true false) ≠
      optimize CompilationMode.Infer true false MC8 := by
  exact ⟨by decide, by decide⟩

/-- C9: when the `optimize-ir` flag is false, `optimize` performs the
verify check and returns the module completely unchanged — no pass runs, no
instruction is touched, no weight mutability changes. -/
theorem optimize_disabled_is_identity (mode : CompilationMode)
    (dbg : Bool) (M : Module) (hv : verify M = true) :
    optimize mode false dbg M = some M := by
  unfold optimize
  rw [if_pos hv]
  rfl

/-- Witness for `optimize_disabled_is_identity` at the concrete module
`MC7`. -/
theorem optimize_disabled_is_identity_witness :
    verify MC7 = true ∧
    optimize CompilationMode.Infer false false MC7 = some MC7 :=
  ⟨by decide, optimize_disabled_is_identity CompilationMode.Infer false MC7
    (by decide)⟩

end Glow
